import Mathlib

/-!
LRU cache (`src/lru_cache.hpp`): shallow embedding and verification.

`utility::lru_cache<Key, T>` couples a `std::list<std::pair<Key, T>>` (the recency list,
oldest entry first) with a `std::unordered_map<Key, list::iterator>` (the index).

* A list node carries an address `addr`; a `list::iterator` is the address of a node or the
  past-the-end position.  A new node gets an address that no live node of the list has.
* The index is an association list from keys to iterators; `Hash`/`KeyEqual` are the
  decidable equality of `Key`.
* `size_type` values are natural numbers: the code only compares and stores them.
* Using an iterator that refers to no live node (dereferencing or erasing it) is undefined
  behaviour in C++; the embedding reports it as `fault.undefined_behaviour`.
* The loops run on an iteration budget; `evict_fuel`, `erase_range_fuel` and
  `equal_range_fuel` show that the budget is never what stops them.
* A returned `T&` of `operator[]` is the position of the node that holds the value.
* Map iterators of `equal_range` are positions in the iteration order of the index;
  the order of the association list stands for it.
-/

namespace utility

/-- Position in the recency list: the address of a node, or `list_.end()`. -/
inductive iterator where
  | node (addr : Nat)
  | end_
  deriving DecidableEq

/-- Node of `std::list<std::pair<Key, T>>`: the stored pair and the address of the node. -/
structure list_node (Key T : Type) where
  addr : Nat
  first : Key
  second : T
  deriving DecidableEq

/-- Ways in which a call does not return normally. -/
inductive fault where
  | undefined_behaviour
  | out_of_range
  | out_of_fuel
  deriving DecidableEq

deriving instance DecidableEq for Except

section containers

variable {Key T : Type} [DecidableEq Key]

/-- An address that no live node of the list has (what the allocator hands out). -/
def list_fresh (l : List (list_node Key T)) : Nat :=
  l.foldr (fun n a => max (n.addr + 1) a) 0

/-- The position `list_.begin()`. -/
def list_begin : List (list_node Key T) → iterator
  | [] => iterator.end_
  | n :: _ => iterator.node n.addr

/-- Dereference `*it`: the node the iterator refers to, if it is live. -/
def list_deref (l : List (list_node Key T)) : iterator → Option (list_node Key T)
  | iterator.end_ => none
  | iterator.node a => l.find? (fun n => decide (n.addr = a))

/-- The call `list_.insert(list_.end(), value)`: the new list and the position of the new node. -/
def list_insert_end (l : List (list_node Key T)) (value : Key × T) :
    List (list_node Key T) × iterator :=
  (l ++ [⟨list_fresh l, value.1, value.2⟩], iterator.node (list_fresh l))

/-- Unlink the node with address `a`; yields the new list and the position after the node. -/
def list_erase_addr : List (list_node Key T) → Nat → Option (List (list_node Key T) × iterator)
  | [], _ => none
  | n :: rest, a =>
    if n.addr = a then some (rest, list_begin rest)
    else
      match list_erase_addr rest a with
      | none => none
      | some r => some (n :: r.1, r.2)

/-- The call `list_.erase(pos)`; `none` when `pos` refers to no live node. -/
def list_erase (l : List (list_node Key T)) : iterator → Option (List (list_node Key T) × iterator)
  | iterator.end_ => none
  | iterator.node a => list_erase_addr l a

/-- The call `map_.find(key)`: the stored cursor `map_it->second`, or `none` for `map_.end()`. -/
def map_find : List (Key × iterator) → Key → Option iterator
  | [], _ => none
  | p :: m, key => if p.1 = key then some p.2 else map_find m key

/-- The call `map_.insert(std::make_pair(key, it))`: the new map, `result.first->second` and
`result.second`. -/
def map_insert (m : List (Key × iterator)) (kv : Key × iterator) :
    List (Key × iterator) × iterator × Bool :=
  match map_find m kv.1 with
  | some it => (m, it, false)
  | none => (m ++ [kv], kv.2, true)

/-- The call `map_.erase(key)`: the new map and the number of removed records. -/
def map_erase (m : List (Key × iterator)) (key : Key) : List (Key × iterator) × Nat :=
  (m.filter (fun p => !decide (p.1 = key)), if (map_find m key).isSome then 1 else 0)

/-- The assignment `map_it->second = list_it` for the record of `key`. -/
def map_assign (m : List (Key × iterator)) (key : Key) (it : iterator) : List (Key × iterator) :=
  m.map (fun p => if p.1 = key then (p.1, it) else p)

/-- The call `map_.count(key)`. -/
def map_count (m : List (Key × iterator)) (key : Key) : Nat :=
  if (map_find m key).isSome then 1 else 0

/-- The increment `++it`: the position after the node `it` refers to; `none` when `it` refers
to no live node of the list (an erased node, or `list_.end()`). -/
def list_next : List (list_node Key T) → iterator → Option iterator
  | _, iterator.end_ => none
  | [], iterator.node _ => none
  | n :: rest, iterator.node a =>
    if n.addr = a then some (list_begin rest) else list_next rest (iterator.node a)

/-- Copies of the elements in new nodes with the addresses `base`, `base + 1`, ... -/
def list_copy_from : Nat → List (list_node Key T) → List (list_node Key T)
  | _, [] => []
  | base, n :: rest => ⟨base, n.first, n.second⟩ :: list_copy_from (base + 1) rest

/-- Copy of a `std::list` made while the source is alive: the elements are copied into new
nodes, whose addresses no node of the source has. -/
def list_copy (l : List (list_node Key T)) : List (list_node Key T) :=
  list_copy_from (list_fresh l) l

/-- The call `map_.equal_range(key)` as a pair of positions in the iteration order of the map;
the position `m.length` is `map_.end()`.  Keys are unique, the range has at most one record. -/
def map_equal_range (m : List (Key × iterator)) (key : Key) : Nat × Nat :=
  if m.findIdx (fun p => decide (p.1 = key)) < m.length then
    (m.findIdx (fun p => decide (p.1 = key)), m.findIdx (fun p => decide (p.1 = key)) + 1)
  else (m.length, m.length)

/-- The nodes of the range `[first, last)` of a list; `none` when `first` is no position of the
list or `last` is not reached from it. -/
def range_nodes : List (list_node Key T) → iterator → iterator →
    Option (List (list_node Key T))
  | [], first, last =>
    if first = iterator.end_ ∧ last = iterator.end_ then some [] else none
  | n :: rest, first, last =>
    if first = iterator.node n.addr then
      if last = iterator.node n.addr then some []
      else
        match range_nodes rest (list_begin rest) last with
        | none => none
        | some r => some (n :: r)
    else range_nodes rest first last

end containers

/-- The private members of `lru_cache`. -/
structure lru_cache (Key T : Type) where
  list_ : List (list_node Key T)
  map_ : List (Key × iterator)
  capacity_ : Nat
  deriving DecidableEq

namespace lru_cache

variable {Key T : Type} [DecidableEq Key]

/-- Constructor `lru_cache(size_type capacity)`. -/
def ctor (capacity : Nat) : lru_cache Key T :=
  ⟨[], [], capacity⟩

/-- Default constructor `lru_cache()`. -/
def ctor_default : lru_cache Key T :=
  ⟨[], [], 8⟩

/-- Member `begin()`. -/
def begin (c : lru_cache Key T) : iterator :=
  list_begin c.list_

/-- Member `empty()`: asks the list. -/
def empty (c : lru_cache Key T) : Bool :=
  c.list_.isEmpty

/-- Member `size()`: asks the index. -/
def size (c : lru_cache Key T) : Nat :=
  c.map_.length

/-- Member `capacity()`. -/
def capacity (c : lru_cache Key T) : Nat :=
  c.capacity_

/-- Member `count(key)`. -/
def count (c : lru_cache Key T) (key : Key) : Nat :=
  map_count c.map_ key

/-- Member `clear()`. -/
def clear (c : lru_cache Key T) : lru_cache Key T :=
  ⟨[], [], c.capacity_⟩

/-- Member `erase(const_iterator pos)`: `map_.erase(pos->first); return list_.erase(pos);`. -/
def erase (c : lru_cache Key T) (pos : iterator) : Except fault (iterator × lru_cache Key T) :=
  match list_deref c.list_ pos with
  | none => Except.error fault.undefined_behaviour
  | some n =>
    match list_erase c.list_ pos with
    | none => Except.error fault.undefined_behaviour
    | some r => Except.ok (r.2, ⟨r.1, (map_erase c.map_ n.first).1, c.capacity_⟩)

/-- The loop `while (map_.size() > capacity_) erase(list_.begin());` with an iteration budget. -/
def evict_loop : Nat → lru_cache Key T → Except fault (lru_cache Key T)
  | 0, c => if c.map_.length > c.capacity_ then Except.error fault.out_of_fuel else Except.ok c
  | fuel + 1, c =>
    if c.map_.length > c.capacity_ then
      match c.erase c.begin with
      | Except.error e => Except.error e
      | Except.ok r => evict_loop fuel r.2
    else Except.ok c

/-- The eviction loop; every iteration unlinks a list node, so `length + 1` rounds suffice. -/
def evict (c : lru_cache Key T) : Except fault (lru_cache Key T) :=
  evict_loop (c.list_.length + 1) c

/-- Member `reserve(new_cap)`; `map_.reserve` only changes the bucket count. -/
def reserve (c : lru_cache Key T) (new_cap : Nat) : Except fault (lru_cache Key T) :=
  evict ⟨c.list_, c.map_, new_cap⟩

/-- Member `insert(const value_type& value)`. -/
def insert (c : lru_cache Key T) (value : Key × T) :
    Except fault ((iterator × Bool) × lru_cache Key T) :=
  let li := list_insert_end c.list_ value
  let mi := map_insert c.map_ (value.1, li.2)
  if mi.2.2 = false then
    match list_erase li.1 li.2 with
    | none => Except.error fault.undefined_behaviour
    | some r => Except.ok ((mi.2.1, false), ⟨r.1, mi.1, c.capacity_⟩)
  else
    match evict ⟨li.1, mi.1, c.capacity_⟩ with
    | Except.error e => Except.error e
    | Except.ok c1 => Except.ok ((li.2, true), c1)

/-- Member `emplace(args...)` with the pair built from `key` and `value`. -/
def emplace (c : lru_cache Key T) (key : Key) (value : T) :
    Except fault ((iterator × Bool) × lru_cache Key T) :=
  let li := list_insert_end c.list_ (key, value)
  match list_deref li.1 li.2 with
  | none => Except.error fault.undefined_behaviour
  | some n =>
    let mi := map_insert c.map_ (n.first, li.2)
    if mi.2.2 = false then
      match list_erase li.1 li.2 with
      | none => Except.error fault.undefined_behaviour
      | some r => Except.ok ((mi.2.1, false), ⟨r.1, mi.1, c.capacity_⟩)
    else
      match evict ⟨li.1, mi.1, c.capacity_⟩ with
      | Except.error e => Except.error e
      | Except.ok c1 => Except.ok ((li.2, true), c1)

/-- Member `insert(InputIt first, InputIt last)`: inserts the elements one after another. -/
def insert_range (c : lru_cache Key T) : List (Key × T) → Except fault (lru_cache Key T)
  | [] => Except.ok c
  | value :: rest =>
    match c.insert value with
    | Except.error e => Except.error e
    | Except.ok r => insert_range r.2 rest

/-- Member `erase(const key_type& key)`. -/
def erase_key (c : lru_cache Key T) (key : Key) : Except fault (Nat × lru_cache Key T) :=
  match map_find c.map_ key with
  | none => Except.ok (0, c)
  | some it =>
    match list_erase c.list_ it with
    | none => Except.error fault.undefined_behaviour
    | some r => Except.ok ((map_erase c.map_ key).2, ⟨r.1, (map_erase c.map_ key).1, c.capacity_⟩)

/-- Member `at(key)`: `map_.at(key)` throws `std::out_of_range` for a missing key.  The result
comes with the state after the call, also when the call throws. -/
def at_ (c : lru_cache Key T) (key : Key) : Except fault T × lru_cache Key T :=
  match map_find c.map_ key with
  | none => (Except.error fault.out_of_range, c)
  | some it =>
    match list_deref c.list_ it with
    | none => (Except.error fault.undefined_behaviour, c)
    | some n => (Except.ok n.second, c)

/-- Calling `erase(key)` `n` times in a row; the returned counts are collected in order. -/
def erase_key_repeat (c : lru_cache Key T) (key : Key) :
    Nat → Except fault (List Nat × lru_cache Key T)
  | 0 => Except.ok ([], c)
  | n + 1 =>
    match c.erase_key key with
    | Except.error e => Except.error e
    | Except.ok r =>
      match erase_key_repeat r.2 key n with
      | Except.error e => Except.error e
      | Except.ok q => Except.ok (r.1 :: q.1, q.2)

/-- Member `find(key)`, the non-const overload: a hit re-links a copy of the entry at the tail. -/
def find (c : lru_cache Key T) (key : Key) : Except fault (iterator × lru_cache Key T) :=
  match map_find c.map_ key with
  | none => Except.ok (iterator.end_, c)
  | some it =>
    match list_deref c.list_ it with
    | none => Except.error fault.undefined_behaviour
    | some n =>
      let li := list_insert_end c.list_ (n.first, n.second)
      match list_erase li.1 it with
      | none => Except.error fault.undefined_behaviour
      | some r => Except.ok (li.2, ⟨r.1, map_assign c.map_ key li.2, c.capacity_⟩)

/-- Member `find(key) const`: no promotion. -/
def find_const (c : lru_cache Key T) (key : Key) : iterator :=
  match map_find c.map_ key with
  | none => iterator.end_
  | some it => it

/-- Member `operator[](const Key& key)`.  The returned `T&` is `list_it->second`; it is
represented by the position `list_it` whose node holds it (see `value_at`). -/
def index [Inhabited T] (c : lru_cache Key T) (key : Key) :
    Except fault (iterator × lru_cache Key T) :=
  match map_find c.map_ key with
  | some it =>
    match list_deref c.list_ it with
    | none => Except.error fault.undefined_behaviour
    | some n =>
      let li := list_insert_end c.list_ (n.first, n.second)
      match list_erase li.1 it with
      | none => Except.error fault.undefined_behaviour
      | some r => Except.ok (li.2, ⟨r.1, map_assign c.map_ key li.2, c.capacity_⟩)
  | none =>
    let li := list_insert_end c.list_ (key, default)
    let mi := map_insert c.map_ (key, li.2)
    if mi.2.2 = false then
      match list_erase li.1 li.2 with
      | none => Except.error fault.undefined_behaviour
      | some r => Except.ok (mi.2.1, ⟨r.1, mi.1, c.capacity_⟩)
    else
      match evict ⟨li.1, mi.1, c.capacity_⟩ with
      | Except.error e => Except.error e
      | Except.ok c1 => Except.ok (li.2, c1)

/-- Read through a reference or position: the value of the node it refers to, if live. -/
def value_at (c : lru_cache Key T) (it : iterator) : Option T :=
  (list_deref c.list_ it).map list_node.second

/-- The entries seen by iterating from `begin()` to `end()`, oldest first. -/
def entries (c : lru_cache Key T) : List (Key × T) :=
  c.list_.map (fun n => (n.first, n.second))

/-- The keys of the recency list, oldest first. -/
def keys (c : lru_cache Key T) : List Key :=
  c.list_.map list_node.first

/-- The loop of `erase(const_iterator first, const_iterator last)`:
`for (auto it = first; it != last; ++it) result = erase(it);` with an iteration budget.
`result` starts as a default-constructed iterator, written `none`. -/
def erase_range_loop : Nat → lru_cache Key T → iterator → iterator → Option iterator →
    Except fault (Option iterator × lru_cache Key T)
  | 0, c, it, last, result =>
    if it = last then Except.ok (result, c) else Except.error fault.out_of_fuel
  | fuel + 1, c, it, last, result =>
    if it = last then Except.ok (result, c)
    else
      match c.erase it with
      | Except.error e => Except.error e
      | Except.ok r =>
        match list_next r.2.list_ it with
        | none => Except.error fault.undefined_behaviour
        | some it1 => erase_range_loop fuel r.2 it1 last (some r.1)

/-- Member `erase(const_iterator first, const_iterator last)`. -/
def erase_range (c : lru_cache Key T) (first last : iterator) :
    Except fault (Option iterator × lru_cache Key T) :=
  erase_range_loop (c.list_.length + 1) c first last none

/-- The loop of the non-const `equal_range`: for every map position from `map_it` up to
`second` or `map_.end()`, re-link a copy of the entry at the tail and repoint the record. -/
def equal_range_loop : Nat → lru_cache Key T → Nat → Nat → Except fault (lru_cache Key T)
  | 0, c, map_it, second =>
    if map_it ≠ second ∧ map_it ≠ c.map_.length then Except.error fault.out_of_fuel
    else Except.ok c
  | fuel + 1, c, map_it, second =>
    if map_it ≠ second ∧ map_it ≠ c.map_.length then
      match c.map_[map_it]? with
      | none => Except.error fault.undefined_behaviour
      | some p =>
        match list_deref c.list_ p.2 with
        | none => Except.error fault.undefined_behaviour
        | some n =>
          let li := list_insert_end c.list_ (n.first, n.second)
          match list_erase li.1 p.2 with
          | none => Except.error fault.undefined_behaviour
          | some r =>
            equal_range_loop fuel ⟨r.1, c.map_.set map_it (p.1, li.2), c.capacity_⟩
              (map_it + 1) second
    else Except.ok c

/-- Member `equal_range(key)`, the non-const overload; `first->second` of the map range is
read after the loop, and reading it at `map_.end()` is undefined. -/
def equal_range (c : lru_cache Key T) (key : Key) :
    Except fault ((iterator × iterator) × lru_cache Key T) :=
  let r := map_equal_range c.map_ key
  match equal_range_loop (c.map_.length + 1) c r.1 r.2 with
  | Except.error e => Except.error e
  | Except.ok c1 =>
    match c1.map_[r.1]? with
    | none => Except.error fault.undefined_behaviour
    | some p => Except.ok ((p.2, iterator.end_), c1)

/-- Member `equal_range(key) const`. -/
def equal_range_const (c : lru_cache Key T) (key : Key) : Except fault (iterator × iterator) :=
  let r := map_equal_range c.map_ key
  if c.map_.length ≠ r.2 then
    match c.map_[r.1]?, c.map_[r.2]? with
    | some p, some q => Except.ok (p.2, q.2)
    | _, _ => Except.error fault.undefined_behaviour
  else
    match c.map_[r.1]? with
    | none => Except.error fault.undefined_behaviour
    | some p => Except.ok (p.2, iterator.end_)

/-- Copy constructor `lru_cache(const lru_cache& other)`: `list_(other.list_)`,
`map_(other.map_)`, `capacity_(other.capacity_)`. -/
def copy_ctor (other : lru_cache Key T) : lru_cache Key T :=
  ⟨list_copy other.list_, other.map_, other.capacity_⟩

/-- Copy assignment `operator=(const lru_cache& other)` from another object: the three members
are copy-assigned one by one. -/
def copy_assign (_c other : lru_cache Key T) : lru_cache Key T :=
  ⟨list_copy other.list_, other.map_, other.capacity_⟩

end lru_cache

/-- The index record that belongs to a list node: its key and its position. -/
def cursor {Key T : Type} (n : list_node Key T) : Key × iterator :=
  (n.first, iterator.node n.addr)

/-- List/index consistency: node addresses and keys of the list are pairwise distinct and the
index holds, in some order, exactly one record per list node, pointing at that node. -/
structure Consistent {Key T : Type} (c : lru_cache Key T) : Prop where
  addr_nodup : (c.list_.map list_node.addr).Nodup
  key_nodup : (c.list_.map list_node.first).Nodup
  index_perm : c.map_.Perm (c.list_.map cursor)

/-- The mutating calls a client can make. -/
inductive op (Key T : Type) where
  | insert (value : Key × T)
  | emplace (key : Key) (value : T)
  | find (key : Key)
  | index (key : Key)
  | erase_key (key : Key)
  | erase (pos : iterator)
  | reserve (new_cap : Nat)
  | clear

section reach

variable {Key T : Type} [DecidableEq Key] [Inhabited T]

/-- The state after a call, when the call returns. -/
def op.run (c : lru_cache Key T) : op Key T → Except fault (lru_cache Key T)
  | op.insert value => (c.insert value).map Prod.snd
  | op.emplace key value => (c.emplace key value).map Prod.snd
  | op.find key => (c.find key).map Prod.snd
  | op.index key => (c.index key).map Prod.snd
  | op.erase_key key => (c.erase_key key).map Prod.snd
  | op.erase pos => (c.erase pos).map Prod.snd
  | op.reserve new_cap => c.reserve new_cap
  | op.clear => Except.ok c.clear

/-- States reachable from a newly constructed cache by calls that return. -/
inductive Reachable : lru_cache Key T → Prop where
  | ctor (capacity : Nat) : Reachable (lru_cache.ctor capacity)
  | step (c c1 : lru_cache Key T) (o : op Key T) :
      Reachable c → op.run c o = Except.ok c1 → Reachable c1

end reach

/-- A sequence of calls, one after another; stops at the first call that does not return. -/
def run_ops {Key T : Type} [DecidableEq Key] [Inhabited T] (c : lru_cache Key T) :
    List (op Key T) → Except fault (lru_cache Key T)
  | [] => Except.ok c
  | o :: rest =>
    match op.run c o with
    | Except.error e => Except.error e
    | Except.ok c1 => run_ops c1 rest

/-- A cache of capacity 2 after `insert` of the keys 1, 2 and 3 (values 10, 20, 30). -/
def sample : lru_cache Nat Nat :=
  ⟨[⟨1, 2, 20⟩, ⟨2, 3, 30⟩], [(2, iterator.node 1), (3, iterator.node 2)], 2⟩

end utility

/-! ## Lemmas about the two containers -/

namespace utility
section list_lemmas
variable {Key T : Type}

theorem list_fresh_gt (l : List (list_node Key T)) (n : list_node Key T) (h : n ∈ l) :
    n.addr < list_fresh l := by
  induction l with
  | nil => cases h
  | cons x xs ih =>
    simp only [list_fresh, List.foldr_cons]
    rcases List.mem_cons.mp h with rfl | h1
    · omega
    · have := ih h1
      simp only [list_fresh] at this
      omega

theorem list_fresh_not_mem (l : List (list_node Key T)) :
    list_fresh l ∉ l.map list_node.addr := by
  intro h
  rcases List.mem_map.mp h with ⟨n, hn, he⟩
  have := list_fresh_gt l n hn
  omega

theorem list_deref_mem (l : List (list_node Key T)) (it : iterator) (n : list_node Key T)
    (h : list_deref l it = some n) : n ∈ l ∧ it = iterator.node n.addr := by
  cases it with
  | end_ => simp [list_deref] at h
  | node a =>
    simp only [list_deref] at h
    have h1 := List.mem_of_find?_eq_some h
    have h2 := List.find?_some h
    simp at h2
    exact ⟨h1, by rw [h2]⟩

theorem list_deref_of_mem (l : List (list_node Key T)) (n : list_node Key T)
    (hnd : (l.map list_node.addr).Nodup) (h : n ∈ l) :
    list_deref l (iterator.node n.addr) = some n := by
  induction l with
  | nil => cases h
  | cons x xs ih =>
    simp only [list_deref, List.find?_cons]
    by_cases hx : x.addr = n.addr
    · simp only [hx, decide_True]
      rcases List.mem_cons.mp h with rfl | h1
      · rfl
      · exfalso
        simp only [List.map_cons, List.nodup_cons] at hnd
        exact hnd.1 (hx ▸ List.mem_map_of_mem _ h1)
    · simp only [hx, decide_False]
      rcases List.mem_cons.mp h with rfl | h1
      · exact absurd rfl hx
      · simp only [List.map_cons, List.nodup_cons] at hnd
        exact ih hnd.2 h1

theorem list_erase_addr_of_mem (l : List (list_node Key T)) (n : list_node Key T)
    (hnd : (l.map list_node.addr).Nodup) (h : n ∈ l) :
    ∃ it, list_erase_addr l n.addr
      = some (l.filter (fun m => !decide (m.addr = n.addr)), it) := by
  induction l with
  | nil => cases h
  | cons x xs ih =>
    simp only [List.map_cons, List.nodup_cons] at hnd
    by_cases hx : x.addr = n.addr
    · refine ⟨list_begin xs, ?_⟩
      have hfil : xs.filter (fun m => !decide (m.addr = n.addr)) = xs := by
        apply List.filter_eq_self.mpr
        intro m hm
        simp only [Bool.not_eq_true', decide_eq_false_iff_not]
        intro he
        exact hnd.1 (by rw [hx, ← he]; exact List.mem_map_of_mem _ hm)
      simp [list_erase_addr, hx, hfil]
    · have hn : n ∈ xs := by
        rcases List.mem_cons.mp h with rfl | h1
        · exact absurd rfl hx
        · exact h1
      obtain ⟨it, hit⟩ := ih hnd.2 hn
      refine ⟨it, ?_⟩
      simp [list_erase_addr, hx, hit]

theorem list_erase_addr_none (l : List (list_node Key T)) (a : Nat)
    (h : a ∉ l.map list_node.addr) : list_erase_addr l a = none := by
  induction l with
  | nil => rfl
  | cons x xs ih =>
    simp only [List.map_cons, List.mem_cons, not_or] at h
    have hx : ¬ x.addr = a := fun e => h.1 e.symm
    simp [list_erase_addr, hx, ih h.2]

theorem list_erase_addr_mem (l : List (list_node Key T)) (a : Nat)
    (r : List (list_node Key T) × iterator) (h : list_erase_addr l a = some r) :
    a ∈ l.map list_node.addr := by
  by_contra hc
  rw [list_erase_addr_none l a hc] at h
  cases h

end list_lemmas

section map_lemmas
variable {Key : Type} [DecidableEq Key]

theorem map_find_mem (m : List (Key × iterator)) (k : Key) (it : iterator)
    (h : map_find m k = some it) : (k, it) ∈ m := by
  induction m with
  | nil => cases h
  | cons p ps ih =>
    simp only [map_find] at h
    by_cases hp : p.1 = k
    · simp only [hp, if_true, Option.some.injEq] at h
      subst hp; subst h
      exact List.mem_cons_self _ _
    · simp only [hp, if_false] at h
      exact List.mem_cons_of_mem _ (ih h)

theorem map_find_of_mem (m : List (Key × iterator)) (k : Key) (it : iterator)
    (hnd : (m.map Prod.fst).Nodup) (h : (k, it) ∈ m) : map_find m k = some it := by
  induction m with
  | nil => cases h
  | cons p ps ih =>
    simp only [List.map_cons, List.nodup_cons] at hnd
    simp only [map_find]
    rcases List.mem_cons.mp h with rfl | h1
    · simp
    · have hp : ¬ p.1 = k := by
        intro e
        exact hnd.1 (e ▸ List.mem_map_of_mem Prod.fst h1)
      simp only [hp, if_false]
      exact ih hnd.2 h1

theorem map_find_none (m : List (Key × iterator)) (k : Key) :
    map_find m k = none ↔ k ∉ m.map Prod.fst := by
  induction m with
  | nil => simp [map_find]
  | cons p ps ih =>
    by_cases hp : p.1 = k
    · simp [map_find, hp]
    · simp only [map_find, hp, if_false, ih, List.map_cons, List.mem_cons, not_or]
      constructor
      · intro h
        exact ⟨fun e => hp e.symm, h⟩
      · intro h
        exact h.2

end map_lemmas

/-! ## Consistency of list and index -/

section consistent_lemmas
variable {Key T : Type}

theorem cursor_fst_map (l : List (list_node Key T)) :
    (l.map cursor).map Prod.fst = l.map list_node.first := by
  simp [List.map_map, Function.comp_def, cursor]

theorem Consistent.size_eq {c : lru_cache Key T} (h : Consistent c) :
    c.map_.length = c.list_.length := by
  rw [h.index_perm.length_eq, List.length_map]

theorem Consistent.index_keys_perm {c : lru_cache Key T} (h : Consistent c) :
    (c.map_.map Prod.fst).Perm (c.list_.map list_node.first) := by
  have := h.index_perm.map Prod.fst
  rwa [cursor_fst_map] at this

theorem Consistent.index_nodup {c : lru_cache Key T} (h : Consistent c) :
    (c.map_.map Prod.fst).Nodup :=
  h.index_keys_perm.nodup_iff.mpr h.key_nodup

theorem Consistent.mem_index {c : lru_cache Key T} (h : Consistent c) (k : Key) (it : iterator) :
    (k, it) ∈ c.map_ ↔ ∃ n ∈ c.list_, n.first = k ∧ it = iterator.node n.addr := by
  rw [h.index_perm.mem_iff, List.mem_map]
  constructor
  · rintro ⟨n, hn, he⟩
    simp only [cursor, Prod.mk.injEq] at he
    exact ⟨n, hn, he.1, he.2.symm⟩
  · rintro ⟨n, hn, h1, h2⟩
    exact ⟨n, hn, by simp [cursor, h1, h2]⟩

theorem Consistent.key_inj {c : lru_cache Key T} (h : Consistent c) (n m : list_node Key T)
    (hn : n ∈ c.list_) (hm : m ∈ c.list_) (e : n.first = m.first) : n = m :=
  List.inj_on_of_nodup_map h.key_nodup hn hm e

theorem Consistent.addr_inj {c : lru_cache Key T} (h : Consistent c) (n m : list_node Key T)
    (hn : n ∈ c.list_) (hm : m ∈ c.list_) (e : n.addr = m.addr) : n = m :=
  List.inj_on_of_nodup_map h.addr_nodup hn hm e

theorem Consistent.filter_addr [DecidableEq Key] {c : lru_cache Key T} (h : Consistent c)
    (n : list_node Key T) (hn : n ∈ c.list_) :
    c.list_.filter (fun m => !decide (m.addr = n.addr))
      = c.list_.filter (fun m => !decide (m.first = n.first)) := by
  apply List.filter_congr
  intro m hm
  by_cases e : m.addr = n.addr
  · have := h.addr_inj m n hm hn e
    subst this
    simp
  · have e2 : ¬ m.first = n.first := fun e3 => e (by rw [h.key_inj m n hm hn e3])
    simp [e, e2]

theorem Consistent_ctor (capacity : Nat) : Consistent (lru_cache.ctor capacity : lru_cache Key T) :=
  ⟨List.nodup_nil, List.nodup_nil, List.Perm.refl _⟩

theorem Consistent_append (c : lru_cache Key T) (h : Consistent c) (n : list_node Key T)
    (ha : n.addr ∉ c.list_.map list_node.addr) (hk : n.first ∉ c.list_.map list_node.first)
    (cap : Nat) :
    Consistent (⟨c.list_ ++ [n], c.map_ ++ [(n.first, iterator.node n.addr)], cap⟩ :
      lru_cache Key T) := by
  refine ⟨?_, ?_, ?_⟩
  · simp only [List.map_append, List.map_cons, List.map_nil]
    exact List.nodup_append.mpr ⟨h.addr_nodup, List.nodup_singleton _, by
      intro a h1 h2
      rw [List.mem_singleton] at h2
      exact ha (h2 ▸ h1)⟩
  · simp only [List.map_append, List.map_cons, List.map_nil]
    exact List.nodup_append.mpr ⟨h.key_nodup, List.nodup_singleton _, by
      intro a h1 h2
      rw [List.mem_singleton] at h2
      exact hk (h2 ▸ h1)⟩
  · simp only [List.map_append, List.map_cons, List.map_nil]
    exact h.index_perm.append (List.Perm.refl _)

end consistent_lemmas

section consistent_ops
variable {Key T : Type} [DecidableEq Key]

theorem Consistent.find_some {c : lru_cache Key T} (h : Consistent c) (k : Key) (it : iterator)
    (hf : map_find c.map_ k = some it) :
    ∃ n ∈ c.list_, n.first = k ∧ it = iterator.node n.addr :=
  (h.mem_index k it).mp (map_find_mem _ _ _ hf)

theorem Consistent.find_of_mem {c : lru_cache Key T} (h : Consistent c) (n : list_node Key T)
    (hn : n ∈ c.list_) : map_find c.map_ n.first = some (iterator.node n.addr) :=
  map_find_of_mem _ _ _ h.index_nodup ((h.mem_index _ _).mpr ⟨n, hn, rfl, rfl⟩)

theorem Consistent.find_none {c : lru_cache Key T} (h : Consistent c) (k : Key) :
    map_find c.map_ k = none ↔ k ∉ c.list_.map list_node.first := by
  rw [map_find_none, h.index_keys_perm.mem_iff]

theorem Consistent_remove (c : lru_cache Key T) (h : Consistent c) (k : Key) (cap : Nat) :
    Consistent (⟨c.list_.filter (fun m => !decide (m.first = k)),
      c.map_.filter (fun p => !decide (p.1 = k)), cap⟩ : lru_cache Key T) := by
  refine ⟨?_, ?_, ?_⟩
  · exact h.addr_nodup.sublist ((List.filter_sublist _).map _)
  · exact h.key_nodup.sublist ((List.filter_sublist _).map _)
  · have hp := h.index_perm.filter (fun p => !decide (p.1 = k))
    simp only [List.filter_map] at hp
    exact hp

theorem map_assign_of_not_mem (m : List (Key × iterator)) (k : Key) (it : iterator)
    (h : k ∉ m.map Prod.fst) : map_assign m k it = m := by
  induction m with
  | nil => rfl
  | cons p ps ih =>
    simp only [List.map_cons, List.mem_cons, not_or] at h
    have hp : ¬ p.1 = k := fun e => h.1 e.symm
    simp only [map_assign, List.map_cons, hp, if_false, List.cons.injEq, true_and]
    exact ih h.2

theorem map_erase_of_not_mem (m : List (Key × iterator)) (k : Key)
    (h : k ∉ m.map Prod.fst) : m.filter (fun p => !decide (p.1 = k)) = m := by
  apply List.filter_eq_self.mpr
  intro p hp
  have : ¬ p.1 = k := fun e => h (e ▸ List.mem_map_of_mem Prod.fst hp)
  simp [this]

theorem map_assign_perm (m : List (Key × iterator)) (k : Key) (it : iterator)
    (hnd : (m.map Prod.fst).Nodup) (h : k ∈ m.map Prod.fst) :
    (map_assign m k it).Perm (m.filter (fun p => !decide (p.1 = k)) ++ [(k, it)]) := by
  induction m with
  | nil => cases h
  | cons p ps ih =>
    simp only [List.map_cons, List.nodup_cons] at hnd
    by_cases hp : p.1 = k
    · have hk : k ∉ ps.map Prod.fst := hp ▸ hnd.1
      have h1 := map_assign_of_not_mem ps k it hk
      simp only [map_assign] at h1
      simp only [map_assign, List.map_cons, hp, if_true, List.filter_cons, decide_True,
        Bool.not_true, h1, map_erase_of_not_mem ps k hk]
      exact (List.perm_append_singleton _ _).symm
    · have hk : k ∈ ps.map Prod.fst := by
        rcases List.mem_cons.mp h with e | e
        · exact absurd e.symm hp
        · exact e
      have := ih hnd.2 hk
      simp only [map_assign] at this
      simp only [map_assign, List.map_cons, hp, if_false, List.filter_cons, decide_False,
        Bool.not_false, if_true, List.cons_append]
      exact this.cons p

theorem Consistent_promote (c : lru_cache Key T) (h : Consistent c) (n : list_node Key T)
    (hn : n ∈ c.list_) (a : Nat) (ha : a ∉ c.list_.map list_node.addr) :
    Consistent (⟨c.list_.filter (fun m => !decide (m.first = n.first)) ++ [⟨a, n.first, n.second⟩],
      map_assign c.map_ n.first (iterator.node a), c.capacity_⟩ : lru_cache Key T) := by
  have hr := Consistent_remove c h n.first c.capacity_
  have hk : n.first ∉ (c.list_.filter (fun m => !decide (m.first = n.first))).map list_node.first := by
    intro hm
    rcases List.mem_map.mp hm with ⟨m, hm1, hm2⟩
    have := (List.mem_filter.mp hm1).2
    simp [hm2] at this
  have ha2 : a ∉ (c.list_.filter (fun m => !decide (m.first = n.first))).map list_node.addr := by
    intro hm
    exact ha ((List.filter_sublist _).map _ |>.subset hm)
  have hap := Consistent_append _ hr ⟨a, n.first, n.second⟩ ha2 hk c.capacity_
  refine ⟨hap.addr_nodup, hap.key_nodup, ?_⟩
  have hin : n.first ∈ c.map_.map Prod.fst :=
    h.index_keys_perm.mem_iff.mpr (List.mem_map_of_mem _ hn)
  exact (map_assign_perm c.map_ n.first (iterator.node a) h.index_nodup hin).trans hap.index_perm

end consistent_ops

/-! ## The member functions on consistent states -/

section op_lemmas
variable {Key T : Type} [DecidableEq Key]

omit [DecidableEq Key] in
theorem list_erase_addr_append_fresh (l : List (list_node Key T)) (n : list_node Key T)
    (h : n.addr ∉ l.map list_node.addr) :
    list_erase_addr (l ++ [n]) n.addr = some (l, iterator.end_) := by
  induction l with
  | nil => simp [list_erase_addr, list_begin]
  | cons x xs ih =>
    simp only [List.map_cons, List.mem_cons, not_or] at h
    have hx : ¬ x.addr = n.addr := fun e => h.1 e.symm
    simp [list_erase_addr, hx, ih h.2]

theorem erase_spec (c : lru_cache Key T) (h : Consistent c) (n : list_node Key T)
    (hn : n ∈ c.list_) :
    ∃ it, c.erase (iterator.node n.addr)
      = Except.ok (it, ⟨c.list_.filter (fun m => !decide (m.first = n.first)),
          c.map_.filter (fun p => !decide (p.1 = n.first)), c.capacity_⟩) := by
  obtain ⟨it, hit⟩ := list_erase_addr_of_mem c.list_ n h.addr_nodup hn
  refine ⟨it, ?_⟩
  simp only [lru_cache.erase, list_deref_of_mem c.list_ n h.addr_nodup hn, list_erase, hit,
    map_erase, h.filter_addr n hn]

theorem erase_ok_valid (c : lru_cache Key T) (pos : iterator)
    (r : iterator × lru_cache Key T) (h : c.erase pos = Except.ok r) :
    ∃ n ∈ c.list_, pos = iterator.node n.addr := by
  unfold lru_cache.erase at h
  cases hd : list_deref c.list_ pos with
  | none => rw [hd] at h; cases h
  | some n => exact ⟨n, list_deref_mem _ _ _ hd⟩

theorem filter_key_head (n : list_node Key T) (rest : List (list_node Key T))
    (h : ((n :: rest).map list_node.first).Nodup) :
    (n :: rest).filter (fun m => !decide (m.first = n.first)) = rest := by
  simp only [List.map_cons, List.nodup_cons] at h
  simp only [List.filter_cons, decide_True, Bool.not_true]
  apply List.filter_eq_self.mpr
  intro m hm
  have : ¬ m.first = n.first := fun e => h.1 (e ▸ List.mem_map_of_mem _ hm)
  simp [this]

theorem evict_loop_spec (fuel : Nat) (c : lru_cache Key T) (h : Consistent c)
    (hf : c.list_.length ≤ fuel) :
    ∃ c1, lru_cache.evict_loop fuel c = Except.ok c1
      ∧ c1.list_ = c.list_.drop (c.list_.length - c.capacity_)
      ∧ Consistent c1 ∧ c1.capacity_ = c.capacity_ ∧ c1.map_.length ≤ c1.capacity_ := by
  induction fuel generalizing c with
  | zero =>
    have hl : c.list_.length = 0 := by omega
    have hm : c.map_.length = 0 := by rw [h.size_eq, hl]
    refine ⟨c, ?_, ?_, h, rfl, by omega⟩
    · simp [lru_cache.evict_loop, hm]
    · simp [hl]
  | succ fuel ih =>
    by_cases hgt : c.map_.length > c.capacity_
    · have hsz := h.size_eq
      cases hl : c.list_ with
      | nil => rw [hl, List.length_nil] at hsz; omega
      | cons n rest =>
        have hn : n ∈ c.list_ := by rw [hl]; exact List.mem_cons_self _ _
        obtain ⟨it, hit⟩ := erase_spec c h n hn
        have hc1 := Consistent_remove c h n.first c.capacity_
        have hfil : c.list_.filter (fun m => !decide (m.first = n.first)) = rest := by
          rw [hl]; exact filter_key_head n rest (hl ▸ h.key_nodup)
        rw [hfil] at hit hc1
        have hlen : rest.length ≤ fuel := by rw [hl] at hf; simp at hf; omega
        obtain ⟨c1, h1, h2, h3, h4, h5⟩ := ih _ hc1 hlen
        refine ⟨c1, ?_, ?_, h3, h4, h5⟩
        · have hb : c.begin = iterator.node n.addr := by
            simp [lru_cache.begin, hl, list_begin]
          simp only [lru_cache.evict_loop, hgt, if_true, hb, hit]
          exact h1
        · rw [h2]
          simp only at *
          rw [hl] at hsz
          simp only [List.length_cons] at hsz ⊢
          have e : rest.length + 1 - c.capacity_ = (rest.length - c.capacity_) + 1 := by omega
          rw [e, List.drop_succ_cons]
    · refine ⟨c, ?_, ?_, h, rfl, by omega⟩
      · simp [lru_cache.evict_loop, hgt]
      · have : c.list_.length - c.capacity_ = 0 := by rw [← h.size_eq]; omega
        simp [this]

theorem evict_spec (c : lru_cache Key T) (h : Consistent c) :
    ∃ c1, c.evict = Except.ok c1
      ∧ c1.list_ = c.list_.drop (c.list_.length - c.capacity_)
      ∧ Consistent c1 ∧ c1.capacity_ = c.capacity_ ∧ c1.map_.length ≤ c1.capacity_ :=
  evict_loop_spec _ c h (Nat.le_succ _)

end op_lemmas

section member_lemmas
variable {Key T : Type} [DecidableEq Key]

omit [DecidableEq Key] in
theorem Consistent_capacity (c : lru_cache Key T) (h : Consistent c) (cap : Nat) :
    Consistent (⟨c.list_, c.map_, cap⟩ : lru_cache Key T) :=
  ⟨h.addr_nodup, h.key_nodup, h.index_perm⟩

omit [DecidableEq Key] in
theorem list_deref_append_fresh (l : List (list_node Key T)) (n : list_node Key T)
    (h : n.addr ∉ l.map list_node.addr) :
    list_deref (l ++ [n]) (iterator.node n.addr) = some n := by
  induction l with
  | nil => simp [list_deref]
  | cons x xs ih =>
    simp only [List.map_cons, List.mem_cons, not_or] at h
    have hx : ¬ x.addr = n.addr := fun e => h.1 e.symm
    have := ih h.2
    simp only [list_deref] at this
    simp [list_deref, hx, this]

theorem insert_present (c : lru_cache Key T) (value : Key × T) (it : iterator)
    (hf : map_find c.map_ value.1 = some it) :
    c.insert value = Except.ok ((it, false), c) := by
  have he := list_erase_addr_append_fresh c.list_ ⟨list_fresh c.list_, value.1, value.2⟩
    (list_fresh_not_mem c.list_)
  simp only [lru_cache.insert, list_insert_end, map_insert, hf, if_true, list_erase, he]

theorem insert_absent (c : lru_cache Key T) (h : Consistent c) (value : Key × T)
    (hf : map_find c.map_ value.1 = none) :
    ∃ c1, c.insert value = Except.ok ((iterator.node (list_fresh c.list_), true), c1)
      ∧ c1.list_ = (c.list_ ++ [(⟨list_fresh c.list_, value.1, value.2⟩ : list_node Key T)]).drop
          (c.list_.length + 1 - c.capacity_)
      ∧ Consistent c1 ∧ c1.capacity_ = c.capacity_ ∧ c1.map_.length ≤ c1.capacity_ := by
  have hk : value.1 ∉ c.list_.map list_node.first := (h.find_none _).mp hf
  have hc := Consistent_append c h ⟨list_fresh c.list_, value.1, value.2⟩
    (list_fresh_not_mem c.list_) hk c.capacity_
  obtain ⟨c1, h1, h2, h3, h4, h5⟩ := evict_spec _ hc
  refine ⟨c1, ?_, ?_, h3, h4, h5⟩
  · simp only [lru_cache.insert, list_insert_end, map_insert, hf, h1]
    simp
  · rw [h2]
    simp

theorem emplace_eq_insert (c : lru_cache Key T) (key : Key) (value : T) :
    c.emplace key value = c.insert (key, value) := by
  have hd := list_deref_append_fresh c.list_ ⟨list_fresh c.list_, key, value⟩
    (list_fresh_not_mem c.list_)
  simp only [lru_cache.emplace, lru_cache.insert, list_insert_end, hd]

theorem find_miss (c : lru_cache Key T) (key : Key) (hf : map_find c.map_ key = none) :
    c.find key = Except.ok (iterator.end_, c) := by
  simp only [lru_cache.find, hf]

theorem find_hit (c : lru_cache Key T) (h : Consistent c) (n : list_node Key T)
    (hn : n ∈ c.list_) :
    c.find n.first = Except.ok (iterator.node (list_fresh c.list_),
      ⟨c.list_.filter (fun m => !decide (m.first = n.first))
          ++ [⟨list_fresh c.list_, n.first, n.second⟩],
        map_assign c.map_ n.first (iterator.node (list_fresh c.list_)), c.capacity_⟩) := by
  have hne : ¬ list_fresh c.list_ = n.addr := by
    have := list_fresh_gt c.list_ n hn
    omega
  have hnd : ((c.list_ ++ [(⟨list_fresh c.list_, n.first, n.second⟩ : list_node Key T)]).map
      list_node.addr).Nodup := by
    simp only [List.map_append, List.map_cons, List.map_nil]
    exact List.nodup_append.mpr ⟨h.addr_nodup, List.nodup_singleton _, by
      intro a h1 h2
      rw [List.mem_singleton] at h2
      exact list_fresh_not_mem c.list_ (h2 ▸ h1)⟩
  obtain ⟨it, hit⟩ := list_erase_addr_of_mem
    (c.list_ ++ [⟨list_fresh c.list_, n.first, n.second⟩]) n hnd
    (List.mem_append_left _ hn)
  simp only [List.filter_append, List.filter_cons, List.filter_nil, hne, decide_False,
    Bool.not_false, if_true, h.filter_addr n hn] at hit
  simp only [lru_cache.find, h.find_of_mem n hn, list_deref_of_mem c.list_ n h.addr_nodup hn,
    list_insert_end, list_erase, hit]

theorem index_hit [Inhabited T] (c : lru_cache Key T) (key : Key) (it : iterator)
    (hf : map_find c.map_ key = some it) : c.index key = c.find key := by
  simp only [lru_cache.index, lru_cache.find, hf]

theorem index_miss [Inhabited T] (c : lru_cache Key T) (key : Key)
    (hf : map_find c.map_ key = none) :
    c.index key = (c.insert (key, default)).map (fun r => (r.1.1, r.2)) := by
  simp only [lru_cache.index, lru_cache.insert, hf, map_insert, list_insert_end]
  simp only [Bool.true_eq_false, if_false]
  cases lru_cache.evict (⟨c.list_ ++ [⟨list_fresh c.list_, key, default⟩],
      c.map_ ++ [(key, iterator.node (list_fresh c.list_))], c.capacity_⟩ : lru_cache Key T) <;> rfl

theorem erase_key_miss (c : lru_cache Key T) (key : Key) (hf : map_find c.map_ key = none) :
    c.erase_key key = Except.ok (0, c) := by
  simp only [lru_cache.erase_key, hf]

theorem erase_key_hit (c : lru_cache Key T) (h : Consistent c) (n : list_node Key T)
    (hn : n ∈ c.list_) :
    c.erase_key n.first = Except.ok (1,
      ⟨c.list_.filter (fun m => !decide (m.first = n.first)),
        c.map_.filter (fun p => !decide (p.1 = n.first)), c.capacity_⟩) := by
  obtain ⟨it, hit⟩ := list_erase_addr_of_mem c.list_ n h.addr_nodup hn
  simp only [lru_cache.erase_key, h.find_of_mem n hn, list_erase, hit, map_erase,
    h.filter_addr n hn, Option.isSome_some, if_true]

end member_lemmas

/-! ## Every reachable state is consistent and within capacity -/

section preservation
variable {Key T : Type} [DecidableEq Key]

theorem map_assign_length (m : List (Key × iterator)) (k : Key) (it : iterator) :
    (map_assign m k it).length = m.length := by
  simp [map_assign]

theorem insert_preserves (c : lru_cache Key T) (h : Consistent c)
    (hs : c.map_.length ≤ c.capacity_) (value : Key × T)
    (r : (iterator × Bool) × lru_cache Key T) (hr : c.insert value = Except.ok r) :
    Consistent r.2 ∧ r.2.map_.length ≤ r.2.capacity_ ∧ r.2.capacity_ = c.capacity_ := by
  cases hf : map_find c.map_ value.1 with
  | some it =>
    rw [insert_present c value it hf] at hr
    cases hr
    exact ⟨h, hs, rfl⟩
  | none =>
    obtain ⟨c1, h1, _, h3, h4, h5⟩ := insert_absent c h value hf
    rw [h1] at hr
    cases hr
    exact ⟨h3, h5, h4⟩

theorem find_preserves (c : lru_cache Key T) (h : Consistent c)
    (hs : c.map_.length ≤ c.capacity_) (key : Key)
    (r : iterator × lru_cache Key T) (hr : c.find key = Except.ok r) :
    Consistent r.2 ∧ r.2.map_.length ≤ r.2.capacity_ ∧ r.2.capacity_ = c.capacity_ := by
  cases hf : map_find c.map_ key with
  | none =>
    rw [find_miss c key hf] at hr
    cases hr
    exact ⟨h, hs, rfl⟩
  | some it =>
    obtain ⟨n, hn, hk, _⟩ := h.find_some key it hf
    subst hk
    rw [find_hit c h n hn] at hr
    cases hr
    refine ⟨Consistent_promote c h n hn _ (list_fresh_not_mem c.list_), ?_, rfl⟩
    simp only [map_assign_length]
    exact hs

theorem index_preserves [Inhabited T] (c : lru_cache Key T) (h : Consistent c)
    (hs : c.map_.length ≤ c.capacity_) (key : Key)
    (r : iterator × lru_cache Key T) (hr : c.index key = Except.ok r) :
    Consistent r.2 ∧ r.2.map_.length ≤ r.2.capacity_ ∧ r.2.capacity_ = c.capacity_ := by
  cases hf : map_find c.map_ key with
  | some it =>
    rw [index_hit c key it hf] at hr
    exact find_preserves c h hs key r hr
  | none =>
    rw [index_miss c key hf] at hr
    cases hi : c.insert (key, default) with
    | error e => rw [hi] at hr; cases hr
    | ok q =>
      rw [hi] at hr
      cases hr
      exact insert_preserves c h hs (key, default) q hi

theorem filter_length_le_of_le {α : Type} (l : List α) (p : α → Bool) (n : Nat)
    (h : l.length ≤ n) : (l.filter p).length ≤ n :=
  Nat.le_trans (List.length_filter_le p l) h

theorem erase_key_preserves (c : lru_cache Key T) (h : Consistent c)
    (hs : c.map_.length ≤ c.capacity_) (key : Key)
    (r : Nat × lru_cache Key T) (hr : c.erase_key key = Except.ok r) :
    Consistent r.2 ∧ r.2.map_.length ≤ r.2.capacity_ ∧ r.2.capacity_ = c.capacity_ := by
  cases hf : map_find c.map_ key with
  | none =>
    rw [erase_key_miss c key hf] at hr
    cases hr
    exact ⟨h, hs, rfl⟩
  | some it =>
    obtain ⟨n, hn, hk, _⟩ := h.find_some key it hf
    subst hk
    rw [erase_key_hit c h n hn] at hr
    cases hr
    exact ⟨Consistent_remove c h n.first c.capacity_, filter_length_le_of_le _ _ _ hs, rfl⟩

theorem erase_preserves (c : lru_cache Key T) (h : Consistent c)
    (hs : c.map_.length ≤ c.capacity_) (pos : iterator)
    (r : iterator × lru_cache Key T) (hr : c.erase pos = Except.ok r) :
    Consistent r.2 ∧ r.2.map_.length ≤ r.2.capacity_ ∧ r.2.capacity_ = c.capacity_ := by
  obtain ⟨n, hn, hp⟩ := erase_ok_valid c pos r hr
  subst hp
  obtain ⟨it, hit⟩ := erase_spec c h n hn
  rw [hit] at hr
  cases hr
  exact ⟨Consistent_remove c h n.first c.capacity_, filter_length_le_of_le _ _ _ hs, rfl⟩

theorem reserve_preserves (c : lru_cache Key T) (h : Consistent c) (new_cap : Nat)
    (c1 : lru_cache Key T) (hr : c.reserve new_cap = Except.ok c1) :
    Consistent c1 ∧ c1.map_.length ≤ c1.capacity_ ∧ c1.capacity_ = new_cap := by
  obtain ⟨c2, h1, _, h3, h4, h5⟩ := evict_spec _ (Consistent_capacity c h new_cap)
  simp only [lru_cache.reserve] at hr
  rw [h1] at hr
  cases hr
  exact ⟨h3, h5, h4⟩

theorem except_map_ok {ε α β : Type} (f : α → β) (x : Except ε α) (b : β)
    (h : x.map f = Except.ok b) : ∃ a, x = Except.ok a ∧ f a = b := by
  cases x with
  | error e => cases h
  | ok a =>
    refine ⟨a, rfl, ?_⟩
    simp only [Except.map] at h
    cases h
    rfl

theorem run_preserves [Inhabited T] (c c1 : lru_cache Key T) (o : op Key T)
    (h : Consistent c) (hs : c.map_.length ≤ c.capacity_) (hr : op.run c o = Except.ok c1) :
    Consistent c1 ∧ c1.map_.length ≤ c1.capacity_ := by
  cases o with
  | insert value =>
    obtain ⟨r, h1, h2⟩ := except_map_ok _ _ _ hr
    subst h2
    exact ⟨(insert_preserves c h hs value r h1).1, (insert_preserves c h hs value r h1).2.1⟩
  | emplace key value =>
    obtain ⟨r, h1, h2⟩ := except_map_ok _ _ _ hr
    subst h2
    rw [emplace_eq_insert] at h1
    exact ⟨(insert_preserves c h hs _ r h1).1, (insert_preserves c h hs _ r h1).2.1⟩
  | find key =>
    obtain ⟨r, h1, h2⟩ := except_map_ok _ _ _ hr
    subst h2
    exact ⟨(find_preserves c h hs key r h1).1, (find_preserves c h hs key r h1).2.1⟩
  | index key =>
    obtain ⟨r, h1, h2⟩ := except_map_ok _ _ _ hr
    subst h2
    exact ⟨(index_preserves c h hs key r h1).1, (index_preserves c h hs key r h1).2.1⟩
  | erase_key key =>
    obtain ⟨r, h1, h2⟩ := except_map_ok _ _ _ hr
    subst h2
    exact ⟨(erase_key_preserves c h hs key r h1).1, (erase_key_preserves c h hs key r h1).2.1⟩
  | erase pos =>
    obtain ⟨r, h1, h2⟩ := except_map_ok _ _ _ hr
    subst h2
    exact ⟨(erase_preserves c h hs pos r h1).1, (erase_preserves c h hs pos r h1).2.1⟩
  | reserve new_cap =>
    exact ⟨(reserve_preserves c h new_cap c1 hr).1, (reserve_preserves c h new_cap c1 hr).2.1⟩
  | clear =>
    simp only [op.run] at hr
    cases hr
    exact ⟨⟨List.nodup_nil, List.nodup_nil, List.Perm.refl _⟩, Nat.zero_le _⟩

theorem Reachable.inv [Inhabited T] {c : lru_cache Key T} (h : Reachable c) :
    Consistent c ∧ c.map_.length ≤ c.capacity_ := by
  induction h with
  | ctor capacity => exact ⟨Consistent_ctor capacity, Nat.zero_le _⟩
  | step c c1 o _ hr ih => exact run_preserves c c1 o ih.1 ih.2 hr

end preservation

theorem sample_reachable : Reachable sample :=
  Reachable.step _ _ (op.insert (3, 30))
    (Reachable.step _ _ (op.insert (2, 20))
      (Reachable.step _ _ (op.insert (1, 10)) (Reachable.ctor 2) rfl)
      rfl)
    rfl

section range_lemmas
variable {Key T : Type} [DecidableEq Key]

theorem count_eq_one (c : lru_cache Key T) (h : Consistent c) (k : Key) (hk : k ∈ c.keys) :
    c.count k = 1 := by
  have : map_find c.map_ k ≠ none := fun e => (h.find_none k).mp e hk
  cases hf : map_find c.map_ k with
  | none => exact absurd hf this
  | some it => simp [lru_cache.count, map_count, hf]

theorem count_eq_zero (c : lru_cache Key T) (h : Consistent c) (k : Key) (hk : k ∉ c.keys) :
    c.count k = 0 := by
  have hf : map_find c.map_ k = none := (h.find_none k).mpr hk
  simp [lru_cache.count, map_count, hf]

omit [DecidableEq Key] in
theorem entries_keys (c : lru_cache Key T) : c.entries.map Prod.fst = c.keys := by
  simp [lru_cache.entries, lru_cache.keys, List.map_map, Function.comp_def]

omit [DecidableEq Key] in
theorem entries_length (c : lru_cache Key T) : c.entries.length = c.list_.length := by
  simp [lru_cache.entries]

theorem insert_absent_entries (c : lru_cache Key T) (h : Consistent c) (value : Key × T)
    (hk : value.1 ∉ c.keys) :
    ∃ c1, c.insert value = Except.ok ((iterator.node (list_fresh c.list_), true), c1)
      ∧ c1.entries = (c.entries ++ [value]).drop (c.size + 1 - c.capacity)
      ∧ Consistent c1 ∧ c1.capacity_ = c.capacity_ ∧ c1.map_.length ≤ c1.capacity_ := by
  obtain ⟨c1, h1, h2, h3, h4, h5⟩ := insert_absent c h value ((h.find_none _).mpr hk)
  refine ⟨c1, h1, ?_, h3, h4, h5⟩
  simp only [lru_cache.entries, h2, List.map_drop, List.map_append, List.map_cons, List.map_nil,
    lru_cache.size, lru_cache.capacity, h.size_eq]

theorem insert_range_new (kvs : List (Key × T)) (c : lru_cache Key T) (h : Consistent c)
    (hs : c.size ≤ c.capacity) (hnd : (kvs.map Prod.fst).Nodup)
    (hnew : ∀ k ∈ kvs.map Prod.fst, k ∉ c.keys) :
    ∃ c1, c.insert_range kvs = Except.ok c1
      ∧ c1.entries = (c.entries ++ kvs).drop (c.size + kvs.length - c.capacity)
      ∧ Consistent c1 ∧ c1.capacity_ = c.capacity_ ∧ c1.size ≤ c1.capacity := by
  induction kvs generalizing c with
  | nil =>
    refine ⟨c, rfl, ?_, h, rfl, hs⟩
    have : c.size + ([] : List (Key × T)).length - c.capacity = 0 := by
      simp only [List.length_nil]; omega
    rw [this, List.append_nil, List.drop_zero]
  | cons x rest ih =>
    simp only [List.map_cons, List.nodup_cons] at hnd
    have hx : x.1 ∉ c.keys := hnew x.1 (by simp)
    obtain ⟨c1, h1, h2, h3, h4, h5⟩ := insert_absent_entries c h x hx
    have hsub : ∀ k ∈ c1.keys, k ∈ c.keys ∨ k = x.1 := by
      intro k hk
      rw [← entries_keys, h2] at hk
      have := (List.map_subset _ (List.drop_subset _ _)) hk
      simp only [List.map_append, List.map_cons, List.map_nil, List.mem_append,
        List.mem_singleton, entries_keys] at this
      exact this
    have hnew1 : ∀ k ∈ rest.map Prod.fst, k ∉ c1.keys := by
      intro k hk hk1
      rcases hsub k hk1 with e | e
      · exact hnew k (by simp only [List.map_cons, List.mem_cons]; exact Or.inr hk) e
      · exact hnd.1 (e ▸ hk)
    obtain ⟨c2, g1, g2, g3, g4, g5⟩ := ih c1 h3 h5 hnd.2 hnew1
    refine ⟨c2, ?_, ?_, g3, g4.trans h4, g5⟩
    · simp only [lru_cache.insert_range, h1]
      exact g1
    · have hlen1 : c1.size = c.size + 1 - (c.size + 1 - c.capacity) := by
        have e1 : c1.size = c1.entries.length := by
          rw [entries_length]; exact h3.size_eq
        have e2 : c.size = c.entries.length := by
          rw [entries_length]; exact h.size_eq
        rw [e1, h2, List.length_drop, List.length_append, List.length_singleton, ← e2]
      have hd : c.size + 1 - c.capacity ≤ (c.entries ++ [x]).length := by
        rw [List.length_append, List.length_singleton, entries_length, ← h.size_eq]
        simp only [lru_cache.size]
        omega
      have hcap : c1.capacity = c.capacity := h4
      rw [g2, h2, ← List.drop_append_of_le_length hd, List.drop_drop, List.append_assoc,
        List.singleton_append, hlen1, hcap]
      congr 1
      simp only [List.length_cons]
      omega

end range_lemmas

section promote_lemmas
variable {Key T : Type} [DecidableEq Key]

omit [DecidableEq Key] in
theorem mem_entries (c : lru_cache Key T) (k : Key) (v : T) (h : (k, v) ∈ c.entries) :
    ∃ n ∈ c.list_, n.first = k ∧ n.second = v := by
  simp only [lru_cache.entries, List.mem_map, Prod.mk.injEq] at h
  obtain ⟨n, hn, h1, h2⟩ := h
  exact ⟨n, hn, h1, h2⟩

theorem entries_filter (l : List (list_node Key T)) (k : Key) :
    (l.filter (fun m => !decide (m.first = k))).map (fun n => (n.first, n.second))
      = (l.map (fun n => (n.first, n.second))).filter (fun p => !decide (p.1 = k)) := by
  rw [List.filter_map]
  rfl

theorem find_hit_entries (c : lru_cache Key T) (h : Consistent c) (k : Key) (v : T)
    (hkv : (k, v) ∈ c.entries) :
    ∃ c1, c.find k = Except.ok (iterator.node (list_fresh c.list_), c1)
      ∧ c1.entries = c.entries.filter (fun p => !decide (p.1 = k)) ++ [(k, v)]
      ∧ c1.list_.getLast? = some ⟨list_fresh c.list_, k, v⟩
      ∧ map_find c1.map_ k = some (iterator.node (list_fresh c.list_))
      ∧ Consistent c1 ∧ c1.capacity_ = c.capacity_ ∧ c1.size = c.size := by
  obtain ⟨n, hn, h1, h2⟩ := mem_entries c k v hkv
  subst h1; subst h2
  have hc := Consistent_promote c h n hn _ (list_fresh_not_mem c.list_)
  refine ⟨_, find_hit c h n hn, ?_, ?_, ?_, hc, rfl, ?_⟩
  · simp only [lru_cache.entries, List.map_append, List.map_cons, List.map_nil, entries_filter]
  · simp
  · have := hc.find_of_mem ⟨list_fresh c.list_, n.first, n.second⟩ (by simp)
    exact this
  · simp only [lru_cache.size, map_assign_length]

end promote_lemmas

section lookup_lemmas
variable {Key T : Type} [DecidableEq Key]

theorem Consistent.lookup {c : lru_cache Key T} (h : Consistent c) (k : Key) (v : T)
    (hkv : (k, v) ∈ c.entries) :
    ∃ n, n ∈ c.list_ ∧ n.first = k ∧ n.second = v
      ∧ map_find c.map_ k = some (iterator.node n.addr)
      ∧ list_deref c.list_ (iterator.node n.addr) = some n := by
  obtain ⟨n, hn, h1, h2⟩ := mem_entries c k v hkv
  refine ⟨n, hn, h1, h2, ?_, list_deref_of_mem c.list_ n h.addr_nodup hn⟩
  rw [← h1]
  exact h.find_of_mem n hn

omit [DecidableEq Key] in
theorem mem_keys_entries (c : lru_cache Key T) (k : Key) (hk : k ∈ c.keys) :
    ∃ v, (k, v) ∈ c.entries := by
  simp only [lru_cache.keys, List.mem_map] at hk
  obtain ⟨n, hn, rfl⟩ := hk
  exact ⟨n.second, by simp only [lru_cache.entries, List.mem_map]; exact ⟨n, hn, rfl⟩⟩

theorem erase_key_repeat_miss (c : lru_cache Key T) (key : Key)
    (hf : map_find c.map_ key = none) (n : Nat) :
    c.erase_key_repeat key n = Except.ok (List.replicate n 0, c) := by
  induction n with
  | zero => rfl
  | succ n ih =>
    simp only [lru_cache.erase_key_repeat, erase_key_miss c key hf, ih, List.replicate_succ]

end lookup_lemmas

section fuel_lemmas
variable {Key T : Type} [DecidableEq Key]

theorem erase_begin_cons (c : lru_cache Key T) (n : list_node Key T)
    (rest : List (list_node Key T)) (hl : c.list_ = n :: rest) :
    c.erase c.begin = Except.ok (list_begin rest,
      ⟨rest, (map_erase c.map_ n.first).1, c.capacity_⟩) := by
  simp [lru_cache.erase, lru_cache.begin, hl, list_begin, list_deref, list_erase,
    list_erase_addr]

theorem erase_begin_nil (c : lru_cache Key T) (hl : c.list_ = []) :
    c.erase c.begin = Except.error fault.undefined_behaviour := by
  simp [lru_cache.erase, lru_cache.begin, hl, list_begin, list_deref]

/-- The iteration budget of `evict` is never the reason for a failure: the loop of the source
ends after at most `length + 1` rounds in every state, consistent or not. -/
theorem evict_loop_fuel (fuel : Nat) (c : lru_cache Key T) (hf : c.list_.length < fuel) :
    lru_cache.evict_loop fuel c ≠ Except.error fault.out_of_fuel := by
  induction fuel generalizing c with
  | zero => omega
  | succ fuel ih =>
    by_cases hgt : c.map_.length > c.capacity_
    · cases hl : c.list_ with
      | nil =>
        simp only [lru_cache.evict_loop, hgt, if_true, erase_begin_nil c hl]
        intro e
        cases e
      | cons n rest =>
        simp only [lru_cache.evict_loop, hgt, if_true, erase_begin_cons c n rest hl]
        apply ih
        rw [hl] at hf
        simp only [List.length_cons] at hf
        show rest.length < fuel
        omega
    · simp only [lru_cache.evict_loop, hgt, if_false]
      intro e
      cases e

theorem evict_fuel (c : lru_cache Key T) : c.evict ≠ Except.error fault.out_of_fuel :=
  evict_loop_fuel _ c (Nat.lt_succ_self _)

end fuel_lemmas

section later_lemmas
variable {Key T : Type} [DecidableEq Key]

theorem evict_within_capacity (c : lru_cache Key T) (h : c.map_.length ≤ c.capacity_) :
    c.evict = Except.ok c := by
  have : ¬ c.map_.length > c.capacity_ := by omega
  simp only [lru_cache.evict, lru_cache.evict_loop, this, if_false]

omit [DecidableEq Key] in
theorem Consistent.empty_state {c : lru_cache Key T} (h : Consistent c) (h0 : c.map_.length = 0) :
    c = ⟨[], [], c.capacity_⟩ := by
  have hl : c.list_.length = 0 := by rw [← h.size_eq]; exact h0
  cases c with
  | mk l m cap =>
    simp only at h0 hl
    rw [List.length_eq_zero] at h0 hl
    subst h0; subst hl
    rfl

theorem find_hit_keys (c c1 : lru_cache Key T) (k : Key) (v : T) (hkv : (k, v) ∈ c.entries)
    (he : c1.entries = c.entries.filter (fun p => !decide (p.1 = k)) ++ [(k, v)]) (k1 : Key) :
    k1 ∈ c1.keys ↔ k1 ∈ c.keys := by
  rw [← entries_keys, ← entries_keys, he]
  simp only [List.map_append, List.map_cons, List.map_nil, List.mem_append, List.mem_singleton,
    List.mem_map, List.mem_filter, Bool.not_eq_true', decide_eq_false_iff_not]
  constructor
  · rintro (⟨p, ⟨hp, _⟩, e⟩ | e)
    · exact ⟨p, hp, e⟩
    · exact ⟨(k, v), hkv, e.symm⟩
  · rintro ⟨p, hp, e⟩
    by_cases hk : k1 = k
    · exact Or.inr hk
    · exact Or.inl ⟨p, ⟨hp, fun e2 => hk (e ▸ e2)⟩, e⟩

end later_lemmas

section defect_lemmas
variable {Key T : Type} [DecidableEq Key]

theorem index_absent_positive [Inhabited T] (c : lru_cache Key T) (h : Consistent c)
    (hpos : 0 < c.capacity) (k : Key) (hk : k ∉ c.keys) :
    ∃ it c1, c.index k = Except.ok (it, c1)
      ∧ c1.entries = (c.entries ++ [(k, default)]).drop (c.size + 1 - c.capacity)
      ∧ c1.value_at it = some default
      ∧ map_find c1.map_ k = some it
      ∧ c1.capacity = c.capacity := by
  have hf : map_find c.map_ k = none := (h.find_none k).mpr hk
  obtain ⟨c1, h1, h2, h3, h4, _⟩ := insert_absent c h (k, default) hf
  obtain ⟨c2, g1, g2, _, _, _⟩ := insert_absent_entries c h (k, default) hk
  rw [h1] at g1
  cases g1
  have hmem : (⟨list_fresh c.list_, k, default⟩ : list_node Key T) ∈ c1.list_ := by
    rw [h2]
    have hle : c.list_.length + 1 - c.capacity_ ≤ c.list_.length := by
      simp only [lru_cache.capacity] at hpos
      omega
    rw [List.drop_append_of_le_length hle]
    simp
  have hd := list_deref_of_mem c1.list_ _ h3.addr_nodup hmem
  refine ⟨_, c1, ?_, g2, ?_, h3.find_of_mem _ hmem, h4⟩
  · rw [index_miss c k hf, h1]
    rfl
  · simp only [lru_cache.value_at, hd, Option.map_some']

omit [DecidableEq Key] in
theorem list_deref_none (l : List (list_node Key T)) (a : Nat)
    (h : a ∉ l.map list_node.addr) : list_deref l (iterator.node a) = none := by
  simp only [list_deref, List.find?_eq_none, decide_eq_true_eq]
  intro n hn e
  exact h (e ▸ List.mem_map_of_mem _ hn)

theorem index_capacity_zero [Inhabited T] (c : lru_cache Key T) (h : Consistent c)
    (h0 : c.capacity = 0) (hs : c.size ≤ c.capacity) (k : Key) :
    ∃ it, c.index k = Except.ok (it, c) ∧ c.value_at it = none := by
  have hm : c.map_.length = 0 := by
    simp only [lru_cache.size] at hs
    omega
  have hce := h.empty_state hm
  have hl : c.list_ = [] := by rw [hce]
  have hk : k ∉ c.keys := by simp [lru_cache.keys, hl]
  have hf : map_find c.map_ k = none := (h.find_none k).mpr hk
  obtain ⟨c1, h1, _, h3, h4, h5⟩ := insert_absent c h (k, default) hf
  have h6 : c1.map_.length = 0 := by
    simp only [lru_cache.capacity] at h0
    omega
  have h7 := h3.empty_state h6
  rw [h4, ← hce] at h7
  subst h7
  refine ⟨_, by rw [index_miss c1 k hf, h1]; rfl, ?_⟩
  simp [lru_cache.value_at, hl, list_deref]

omit [DecidableEq Key] in
theorem list_next_none (l : List (list_node Key T)) (a : Nat)
    (h : a ∉ l.map list_node.addr) : list_next l (iterator.node a) = none := by
  induction l with
  | nil => rfl
  | cons x xs ih =>
    simp only [List.map_cons, List.mem_cons, not_or] at h
    have hx : ¬ x.addr = a := fun e => h.1 e.symm
    simp only [list_next, hx, if_false]
    exact ih h.2

theorem erase_error (c : lru_cache Key T) (pos : iterator) (e : fault)
    (h : c.erase pos = Except.error e) : e = fault.undefined_behaviour := by
  unfold lru_cache.erase at h
  cases hd : list_deref c.list_ pos with
  | none =>
    rw [hd] at h
    cases h
    rfl
  | some n =>
    rw [hd] at h
    cases he : list_erase c.list_ pos with
    | none =>
      rw [he] at h
      cases h
      rfl
    | some r =>
      rw [he] at h
      cases h

/-- On a consistent state the range erase does not return for any non-empty range: after
`erase(it)` the loop increments the iterator of the node it has just unlinked. -/
theorem erase_range_nonempty (c : lru_cache Key T) (h : Consistent c) (first last : iterator)
    (hne : first ≠ last) :
    c.erase_range first last = Except.error fault.undefined_behaviour := by
  simp only [lru_cache.erase_range, lru_cache.erase_range_loop, hne, if_false]
  cases he : c.erase first with
  | error e =>
    rw [erase_error c first e he]
  | ok r =>
    obtain ⟨n, hn, hp⟩ := erase_ok_valid c first r he
    subst hp
    obtain ⟨it, hit⟩ := erase_spec c h n hn
    rw [hit] at he
    cases he
    have hgone : n.addr ∉ (c.list_.filter (fun m => !decide (m.first = n.first))).map
        list_node.addr := by
      rw [← h.filter_addr n hn]
      intro hm
      obtain ⟨m, hm1, hm2⟩ := List.mem_map.mp hm
      have := (List.mem_filter.mp hm1).2
      simp [hm2] at this
    simp only [list_next_none _ _ hgone]

theorem erase_range_empty (c : lru_cache Key T) (first : iterator) :
    c.erase_range first first = Except.ok (none, c) := by
  simp only [lru_cache.erase_range, lru_cache.erase_range_loop, if_true]

theorem map_equal_range_absent (m : List (Key × iterator)) (key : Key)
    (hf : map_find m key = none) : map_equal_range m key = (m.length, m.length) := by
  have hk := (map_find_none m key).mp hf
  have : m.findIdx (fun p => decide (p.1 = key)) = m.length := by
    apply List.findIdx_eq_length_of_false
    intro p hp
    have : ¬ p.1 = key := fun e => hk (e ▸ List.mem_map_of_mem Prod.fst hp)
    simp [this]
  simp only [map_equal_range, this, Nat.lt_irrefl, if_false]

/-- Both overloads of `equal_range` read `first->second` of the map range; for a key that is not
in the index that is `map_.end()`. -/
theorem equal_range_absent (c : lru_cache Key T) (key : Key)
    (hf : map_find c.map_ key = none) :
    c.equal_range key = Except.error fault.undefined_behaviour
      ∧ c.equal_range_const key = Except.error fault.undefined_behaviour := by
  have hr := map_equal_range_absent c.map_ key hf
  constructor
  · simp [lru_cache.equal_range, hr, lru_cache.equal_range_loop]
  · simp [lru_cache.equal_range_const, hr]

omit [DecidableEq Key] in
theorem list_copy_from_entries (l : List (list_node Key T)) (base : Nat) :
    (list_copy_from base l).map (fun n => (n.first, n.second))
      = l.map (fun n => (n.first, n.second)) := by
  induction l generalizing base with
  | nil => rfl
  | cons x xs ih => simp only [list_copy_from, List.map_cons, ih]

omit [DecidableEq Key] in
theorem list_copy_from_addr (l : List (list_node Key T)) (base : Nat) (n : list_node Key T)
    (h : n ∈ list_copy_from base l) : base ≤ n.addr := by
  induction l generalizing base with
  | nil => cases h
  | cons x xs ih =>
    simp only [list_copy_from, List.mem_cons] at h
    rcases h with rfl | h1
    · exact Nat.le_refl _
    · exact Nat.le_trans (Nat.le_succ _) (ih _ h1)

omit [DecidableEq Key] in
theorem copy_ctor_entries (c : lru_cache Key T) :
    c.copy_ctor.entries = c.entries ∧ c.copy_ctor.capacity = c.capacity
      ∧ c.copy_ctor.map_ = c.map_ :=
  ⟨list_copy_from_entries _ _, rfl, rfl⟩

omit [DecidableEq Key] in
/-- In a copy of a consistent cache no record of the index points into the list of the copy:
the cursors are the addresses of the nodes of the source. -/
theorem copy_ctor_cursors (c : lru_cache Key T) (h : Consistent c) (k : Key) (it : iterator)
    (hm : (k, it) ∈ c.copy_ctor.map_) : list_deref c.copy_ctor.list_ it = none := by
  obtain ⟨n, hn, _, hit⟩ := (h.mem_index k it).mp hm
  subst hit
  apply list_deref_none
  intro ha
  obtain ⟨m, hm1, hm2⟩ := List.mem_map.mp ha
  have h1 := list_copy_from_addr c.list_ (list_fresh c.list_) m hm1
  have h2 := list_fresh_gt c.list_ n hn
  omega

end defect_lemmas

section budget_lemmas
variable {Key T : Type} [DecidableEq Key]

omit [DecidableEq Key] in
theorem list_erase_addr_length (l : List (list_node Key T)) (a : Nat)
    (r : List (list_node Key T) × iterator) (h : list_erase_addr l a = some r) :
    r.1.length + 1 = l.length := by
  induction l generalizing r with
  | nil => cases h
  | cons x xs ih =>
    simp only [list_erase_addr] at h
    by_cases hx : x.addr = a
    · simp only [hx, if_true, Option.some.injEq] at h
      subst h
      rfl
    · simp only [hx, if_false] at h
      cases hr : list_erase_addr xs a with
      | none => rw [hr] at h; cases h
      | some q =>
        rw [hr] at h
        simp only [Option.some.injEq] at h
        subst h
        simp only [List.length_cons, ih q hr]

theorem erase_length (c : lru_cache Key T) (pos : iterator) (r : iterator × lru_cache Key T)
    (h : c.erase pos = Except.ok r) : r.2.list_.length + 1 = c.list_.length := by
  unfold lru_cache.erase at h
  cases hd : list_deref c.list_ pos with
  | none => rw [hd] at h; cases h
  | some n =>
    rw [hd] at h
    cases he : list_erase c.list_ pos with
    | none => rw [he] at h; cases h
    | some q =>
      rw [he] at h
      cases h
      cases pos with
      | end_ => cases he
      | node a => exact list_erase_addr_length c.list_ a q he

/-- The iteration budget of `erase_range` is never the reason for a failure. -/
theorem erase_range_loop_fuel (fuel : Nat) (c : lru_cache Key T) (it last : iterator)
    (result : Option iterator) (hf : c.list_.length < fuel) :
    lru_cache.erase_range_loop fuel c it last result ≠ Except.error fault.out_of_fuel := by
  induction fuel generalizing c it result with
  | zero => omega
  | succ fuel ih =>
    by_cases hl : it = last
    · simp only [lru_cache.erase_range_loop, hl, if_true]
      intro e; cases e
    · simp only [lru_cache.erase_range_loop, hl, if_false]
      cases he : c.erase it with
      | error e =>
        rw [erase_error c it e he]
        intro e2; cases e2
      | ok r =>
        have hlen := erase_length c it r he
        cases hn : list_next r.2.list_ it with
        | none =>
          simp only [hn]
          intro e2; cases e2
        | some it1 =>
          simp only [hn]
          exact ih r.2 it1 (some r.1) (by omega)

theorem erase_range_fuel (c : lru_cache Key T) (first last : iterator) :
    c.erase_range first last ≠ Except.error fault.out_of_fuel :=
  erase_range_loop_fuel _ c first last none (Nat.lt_succ_self _)

omit [DecidableEq Key] in
/-- The iteration budget of `equal_range` is never the reason for a failure. -/
theorem equal_range_loop_fuel (fuel : Nat) (c : lru_cache Key T) (map_it second : Nat)
    (hf : c.map_.length - map_it < fuel) :
    lru_cache.equal_range_loop fuel c map_it second ≠ Except.error fault.out_of_fuel := by
  induction fuel generalizing c map_it with
  | zero => omega
  | succ fuel ih =>
    by_cases hcond : map_it ≠ second ∧ map_it ≠ c.map_.length
    · simp only [lru_cache.equal_range_loop]
      rw [if_pos hcond]
      cases hp : c.map_[map_it]? with
      | none =>
        dsimp only
        intro e; cases e
      | some p =>
        have hlt : map_it < c.map_.length := by
          rcases List.getElem?_eq_some_iff.mp hp with ⟨hlt, _⟩
          exact hlt
        dsimp only
        cases hd : list_deref c.list_ p.2 with
        | none =>
          dsimp only
          intro e; cases e
        | some n =>
          dsimp only
          cases he : list_erase (list_insert_end c.list_ (n.first, n.second)).1 p.2 with
          | none =>
            dsimp only
            intro e; cases e
          | some r =>
            dsimp only
            apply ih
            simp only [List.length_set]
            omega
    · simp only [lru_cache.equal_range_loop]
      rw [if_neg hcond]
      intro e; cases e

theorem equal_range_fuel (c : lru_cache Key T) (key : Key) :
    c.equal_range key ≠ Except.error fault.out_of_fuel := by
  have hl := equal_range_loop_fuel (c.map_.length + 1) c (map_equal_range c.map_ key).1
    (map_equal_range c.map_ key).2 (by omega)
  simp only [lru_cache.equal_range]
  cases hq : lru_cache.equal_range_loop (c.map_.length + 1) c (map_equal_range c.map_ key).1
      (map_equal_range c.map_ key).2 with
  | error e =>
    dsimp only
    intro e2
    cases e2
    exact hl hq
  | ok c1 =>
    dsimp only
    cases c1.map_[(map_equal_range c.map_ key).1]? with
    | none => intro e2; cases e2
    | some p => intro e2; cases e2

end budget_lemmas

/-- The const `equal_range` on the cache `sample` after `find(2)` (list: keys 3, 2), with the
records of the index iterated in the order of the association list (keys 2, 3): for key 3 the
range runs from the node of key 3 to `end()` and holds the entry of key 2 as well; for key 2
the second position lies before the first, which is no range of the list. -/
theorem equal_range_const_after_find :
    sample.find 2 = Except.ok (iterator.node 3,
        ⟨[⟨2, 3, 30⟩, ⟨3, 2, 20⟩], [(2, iterator.node 3), (3, iterator.node 2)], 2⟩)
      ∧ (⟨[⟨2, 3, 30⟩, ⟨3, 2, 20⟩], [(2, iterator.node 3), (3, iterator.node 2)], 2⟩ :
          lru_cache Nat Nat).equal_range_const 3 = Except.ok (iterator.node 2, iterator.end_)
      ∧ range_nodes [(⟨2, 3, 30⟩ : list_node Nat Nat), ⟨3, 2, 20⟩] (iterator.node 2)
          iterator.end_ = some [⟨2, 3, 30⟩, ⟨3, 2, 20⟩]
      ∧ (⟨[⟨2, 3, 30⟩, ⟨3, 2, 20⟩], [(2, iterator.node 3), (3, iterator.node 2)], 2⟩ :
          lru_cache Nat Nat).equal_range_const 2 = Except.ok (iterator.node 3, iterator.node 2)
      ∧ range_nodes [(⟨2, 3, 30⟩ : list_node Nat Nat), ⟨3, 2, 20⟩] (iterator.node 3)
          (iterator.node 2) = none :=
  ⟨by decide, by decide, by decide, by decide, by decide⟩

/-! ## Properties of the cache -/

/-- C1: in every state reachable from a newly constructed cache (any capacity) by calls of
insert, emplace, find, operator[], erase(key), erase(position), reserve and clear that return,
`size() <= capacity()`. -/
theorem capacity_bound {Key T : Type} [DecidableEq Key] [Inhabited T] (c : lru_cache Key T)
    (h : Reachable c) : c.size ≤ c.capacity :=
  h.inv.2

/-- C2: in every reachable state the recency list has no two entries with the same key, the
index has one record per key, the key set of the index is the key set of the list, and every
cursor stored in the index refers to a live list node whose key is the key of the record. -/
theorem list_index_consistency {Key T : Type} [DecidableEq Key] [Inhabited T]
    (c : lru_cache Key T) (h : Reachable c) :
    c.keys.Nodup
      ∧ (c.map_.map Prod.fst).Nodup
      ∧ (∀ k, k ∈ c.map_.map Prod.fst ↔ k ∈ c.keys)
      ∧ (∀ k it, (k, it) ∈ c.map_ → ∃ n, list_deref c.list_ it = some n ∧ n.first = k) := by
  have hc := h.inv.1
  refine ⟨hc.key_nodup, hc.index_nodup, fun k => hc.index_keys_perm.mem_iff, ?_⟩
  intro k it hm
  obtain ⟨n, hn, hk, hit⟩ := (hc.mem_index k it).mp hm
  exact ⟨n, by rw [hit]; exact list_deref_of_mem c.list_ n hc.addr_nodup hn, hk⟩

theorem capacity_bound_witness : Reachable sample ∧ sample.size ≤ sample.capacity :=
  ⟨sample_reachable, capacity_bound sample sample_reachable⟩

theorem list_index_consistency_witness :
    Reachable sample ∧ sample.keys.Nodup
      ∧ (sample.map_.map Prod.fst).Nodup
      ∧ (∀ k, k ∈ sample.map_.map Prod.fst ↔ k ∈ sample.keys)
      ∧ (∀ k it, (k, it) ∈ sample.map_ → ∃ n, list_deref sample.list_ it = some n ∧ n.first = k) :=
  ⟨sample_reachable, list_index_consistency sample sample_reachable⟩

/-- C3: for every capacity `cap`, inserting `cap + 1` entries with pairwise distinct keys into a
new cache of capacity `cap` returns, evicts the first-inserted key and no other, and leaves
exactly the last `cap` entries, oldest first, in insertion order. -/
theorem eviction_correctness {Key T : Type} [DecidableEq Key] (cap : Nat) (x : Key × T)
    (rest : List (Key × T)) (hlen : rest.length = cap)
    (hnd : ((x :: rest).map Prod.fst).Nodup) :
    ∃ c1, (lru_cache.ctor cap).insert_range (x :: rest) = Except.ok c1
      ∧ c1.entries = rest
      ∧ c1.count x.1 = 0
      ∧ (∀ p ∈ rest, c1.count p.1 = 1)
      ∧ c1.size = cap := by
  obtain ⟨c1, h1, h2, h3, _, _⟩ := insert_range_new (x :: rest)
    (lru_cache.ctor cap : lru_cache Key T) (Consistent_ctor cap) (Nat.zero_le _) hnd
    (by intro k _ hk; cases hk)
  have he : c1.entries = rest := by
    rw [h2]
    simp [lru_cache.ctor, lru_cache.entries, lru_cache.size, lru_cache.capacity, hlen]
  simp only [List.map_cons, List.nodup_cons] at hnd
  refine ⟨c1, h1, he, ?_, ?_, ?_⟩
  · apply count_eq_zero c1 h3
    rw [← entries_keys, he]
    exact hnd.1
  · intro p hp
    apply count_eq_one c1 h3
    rw [← entries_keys, he]
    exact List.mem_map_of_mem _ hp
  · have := h3.size_eq
    rw [← entries_length, he, hlen] at this
    exact this

theorem eviction_correctness_witness :
    ∃ c1, (lru_cache.ctor 2).insert_range [(1, 10), (2, 20), (3, 30)] = Except.ok c1
      ∧ c1.entries = [(2, 20), (3, 30)]
      ∧ c1.count 1 = 0
      ∧ (∀ p ∈ [(2, 20), (3, 30)], c1.count p.1 = 1)
      ∧ c1.size = 2 :=
  eviction_correctness 2 ((1, 10) : Nat × Nat) [(2, 20), (3, 30)] rfl (by decide)

/-- C6: in a reachable state whose recency list holds key `k` with value `v`, the non-const
`find(k)` returns the position of the tail node, which holds `(k, v)`; the new recency list is the
old one without the entry of `k`, followed by `(k, v)`; the index points `k` at the new node;
size and capacity are unchanged. -/
theorem find_promotes {Key T : Type} [DecidableEq Key] [Inhabited T] (c : lru_cache Key T)
    (h : Reachable c) (k : Key) (v : T) (hkv : (k, v) ∈ c.entries) :
    ∃ it c1 n, c.find k = Except.ok (it, c1)
      ∧ c1.list_.getLast? = some n ∧ list_deref c1.list_ it = some n
      ∧ n.first = k ∧ n.second = v
      ∧ c1.entries = c.entries.filter (fun p => !decide (p.1 = k)) ++ [(k, v)]
      ∧ map_find c1.map_ k = some it
      ∧ c1.size = c.size ∧ c1.capacity = c.capacity := by
  obtain ⟨c1, h1, h2, h3, h4, h5, h6, h7⟩ := find_hit_entries c h.inv.1 k v hkv
  have hd := list_deref_of_mem c1.list_ _ h5.addr_nodup (List.mem_of_getLast?_eq_some h3)
  exact ⟨_, c1, _, h1, h3, hd, rfl, rfl, h2, h4, h7, h6⟩

theorem find_promotes_witness :
    ∃ it c1 n, sample.find 2 = Except.ok (it, c1)
      ∧ c1.list_.getLast? = some n ∧ list_deref c1.list_ it = some n
      ∧ n.first = 2 ∧ n.second = 20
      ∧ c1.entries = sample.entries.filter (fun p => !decide (p.1 = 2)) ++ [(2, 20)]
      ∧ map_find c1.map_ 2 = some it
      ∧ c1.size = sample.size ∧ c1.capacity = sample.capacity :=
  find_promotes sample sample_reachable 2 20 (by decide)

/-- C4 (amended): in a reachable state of capacity `cap` that holds key `k`, after `find(k)`
(`operator[]` on `k` does the same), inserting `cap - 1` further entries with pairwise distinct
keys that are not in the cache evicts every key that was present except `k`, which is then the
oldest entry; one more insertion of a new key evicts `k`. -/
theorem promotion_correctness {Key T : Type} [DecidableEq Key] [Inhabited T]
    (c : lru_cache Key T) (h : Reachable c) (k : Key) (v : T) (hkv : (k, v) ∈ c.entries)
    (news : List (Key × T)) (y : Key × T) (hlen : news.length + 1 = c.capacity)
    (hnd : ((news ++ [y]).map Prod.fst).Nodup)
    (hnew : ∀ q ∈ news ++ [y], q.1 ∉ c.keys) :
    ∃ it c1 c2 it3 c3, c.find k = Except.ok (it, c1) ∧ c.index k = c.find k
      ∧ c1.insert_range news = Except.ok c2
      ∧ c2.entries = (k, v) :: news
      ∧ c2.count k = 1
      ∧ (∀ k1 ∈ c.keys, k1 ≠ k → c2.count k1 = 0)
      ∧ c2.insert y = Except.ok ((it3, true), c3)
      ∧ c3.entries = news ++ [y]
      ∧ c3.count k = 0 := by
  have hc := h.inv.1
  have hk : k ∈ c.keys := by
    rw [← entries_keys]; exact List.mem_map_of_mem Prod.fst hkv
  obtain ⟨c1, f1, f2, _, f4, f5, f6, f7⟩ := find_hit_entries c hc k v hkv
  have hidx : c.index k = c.find k := by
    cases hf : map_find c.map_ k with
    | none => exact absurd hk ((hc.find_none k).mp hf)
    | some it0 => exact index_hit c k it0 hf
  have hsub : ∀ k1 ∈ c1.keys, k1 ∈ c.keys := by
    intro k1 hk1
    rw [← entries_keys, f2] at hk1
    simp only [List.map_append, List.map_cons, List.map_nil, List.mem_append,
      List.mem_singleton] at hk1
    rcases hk1 with e | e
    · rw [← entries_keys]
      exact List.map_subset _ (List.filter_sublist _).subset e
    · exact e ▸ hk
  simp only [List.map_append, List.map_cons, List.map_nil] at hnd
  obtain ⟨hnd1, _, hdis⟩ := List.nodup_append.mp hnd
  have hnew1 : ∀ k1 ∈ news.map Prod.fst, k1 ∉ c1.keys := by
    intro k1 hk1 hin
    obtain ⟨q, hq, rfl⟩ := List.mem_map.mp hk1
    exact hnew q (List.mem_append_left _ hq) (hsub _ hin)
  have hs1 : c1.size ≤ c1.capacity := by
    rw [f7]
    simp only [lru_cache.capacity, f6]
    exact h.inv.2
  obtain ⟨c2, g1, g2, g3, g4, _⟩ := insert_range_new news c1 f5 hs1 hnd1 hnew1
  have hF : c1.size = (c.entries.filter (fun p => !decide (p.1 = k))).length + 1 := by
    have : c1.size = c1.entries.length := by rw [entries_length]; exact f5.size_eq
    rw [this, f2, List.length_append, List.length_singleton]
  have hcap1 : c1.capacity = c.capacity := f6
  have hcap2 : c2.capacity = c.capacity := g4.trans f6
  have he2 : c2.entries = (k, v) :: news := by
    rw [g2, f2, hF, hcap1, ← hlen]
    have : (c.entries.filter (fun p => !decide (p.1 = k))).length + 1 + news.length
        - (news.length + 1) = (c.entries.filter (fun p => !decide (p.1 = k))).length := by omega
    rw [this, List.append_assoc, List.drop_left]
    rfl
  have hkeys2 : c2.keys = k :: news.map Prod.fst := by
    rw [← entries_keys, he2]; rfl
  have hy : y.1 ∉ c2.keys := by
    rw [hkeys2, List.mem_cons, not_or]
    refine ⟨fun e => hnew y (by simp) (e ▸ hk), fun e => hdis e (by simp)⟩
  obtain ⟨c3, i1, i2, i3, _, _⟩ := insert_absent_entries c2 g3 y hy
  have hs2 : c2.size = news.length + 1 := by
    have : c2.size = c2.entries.length := by rw [entries_length]; exact g3.size_eq
    rw [this, he2, List.length_cons]
  have he3 : c3.entries = news ++ [y] := by
    rw [i2, he2, hs2, hcap2, ← hlen]
    have : news.length + 1 + 1 - (news.length + 1) = 1 := by omega
    rw [this]
    rfl
  refine ⟨_, c1, c2, _, c3, f1, hidx, g1, he2, ?_, ?_, i1, he3, ?_⟩
  · apply count_eq_one c2 g3
    rw [hkeys2]; exact List.mem_cons_self _ _
  · intro k1 hk1 hne
    apply count_eq_zero c2 g3
    rw [hkeys2, List.mem_cons, not_or]
    refine ⟨hne, fun e => ?_⟩
    obtain ⟨q, hq, rfl⟩ := List.mem_map.mp e
    exact hnew q (List.mem_append_left _ hq) hk1
  · apply count_eq_zero c3 i3
    rw [← entries_keys, he3]
    intro e
    obtain ⟨q, hq, he⟩ := List.mem_map.mp e
    exact hnew q hq (he ▸ hk)

theorem promotion_correctness_witness :
    ∃ it c1 c2 it3 c3, sample.find 2 = Except.ok (it, c1) ∧ sample.index 2 = sample.find 2
      ∧ c1.insert_range [(4, 40)] = Except.ok c2
      ∧ c2.entries = (2, 20) :: [(4, 40)]
      ∧ c2.count 2 = 1
      ∧ (∀ k1 ∈ sample.keys, k1 ≠ 2 → c2.count k1 = 0)
      ∧ c2.insert (5, 50) = Except.ok ((it3, true), c3)
      ∧ c3.entries = [(4, 40)] ++ [(5, 50)]
      ∧ c3.count 2 = 0 :=
  promotion_correctness sample sample_reachable 2 20 (by decide) [(4, 40)] (5, 50) rfl
    (by decide) (by decide)

/-- C4 as stated fails: in the reachable cache `sample` (capacity 2, keys 2 and 3), after
`find(2)` the insertion of 2 new keys (4 and 5) already evicts key 2. -/
theorem promotion_as_stated_fails :
    Reachable sample ∧ sample.capacity = 2 ∧ sample.count 2 = 1
      ∧ sample.count 4 = 0 ∧ sample.count 5 = 0
      ∧ sample.find 2 = Except.ok (iterator.node 3,
          ⟨[⟨2, 3, 30⟩, ⟨3, 2, 20⟩], [(2, iterator.node 3), (3, iterator.node 2)], 2⟩)
      ∧ (⟨[⟨2, 3, 30⟩, ⟨3, 2, 20⟩], [(2, iterator.node 3), (3, iterator.node 2)], 2⟩ :
          lru_cache Nat Nat).insert_range [(4, 40), (5, 50)]
        = Except.ok ⟨[⟨4, 4, 40⟩, ⟨5, 5, 50⟩], [(4, iterator.node 4), (5, iterator.node 5)], 2⟩
      ∧ (⟨[⟨4, 4, 40⟩, ⟨5, 5, 50⟩], [(4, iterator.node 4), (5, iterator.node 5)], 2⟩ :
          lru_cache Nat Nat).count 2 = 0 :=
  ⟨sample_reachable, by decide, by decide, by decide, by decide, by decide, by decide, by decide⟩

/-- C5: in a reachable state that holds key `k` with value `v1`, `insert(k, v2)` (and likewise
`emplace`) returns `false` with the position of the existing entry, which still holds `v1`, and
the state after the call is the state before it: list, index and capacity are the same. -/
theorem insert_no_overwrite {Key T : Type} [DecidableEq Key] [Inhabited T]
    (c : lru_cache Key T) (h : Reachable c) (k : Key) (v1 v2 : T)
    (hkv : (k, v1) ∈ c.entries) :
    ∃ it n, c.insert (k, v2) = Except.ok ((it, false), c)
      ∧ c.emplace k v2 = Except.ok ((it, false), c)
      ∧ list_deref c.list_ it = some n ∧ n.first = k ∧ n.second = v1 := by
  obtain ⟨n, _, h1, h2, h3, h4⟩ := h.inv.1.lookup k v1 hkv
  have hi := insert_present c (k, v2) (iterator.node n.addr) h3
  exact ⟨_, n, hi, by rw [emplace_eq_insert, hi], h4, h1, h2⟩

theorem insert_no_overwrite_witness :
    ∃ it n, sample.insert (2, 99) = Except.ok ((it, false), sample)
      ∧ sample.emplace 2 99 = Except.ok ((it, false), sample)
      ∧ list_deref sample.list_ it = some n ∧ n.first = 2 ∧ n.second = 20 :=
  insert_no_overwrite sample sample_reachable 2 20 99 (by decide)

/-- C7: in a reachable state with entries `L`, size `s` and capacity `cap`, `insert(k, v)` of a
key that is not in the cache returns `true`, and the new recency list is `L` followed by `(k, v)`
without its first `s + 1 - cap` entries (none when `s + 1 <= cap`); the new size is the smaller
of `s + 1` and `cap`, so nothing more than needed is removed, and only from the head. -/
theorem insert_evicts_from_head {Key T : Type} [DecidableEq Key] [Inhabited T]
    (c : lru_cache Key T) (h : Reachable c) (k : Key) (v : T) (hk : k ∉ c.keys) :
    ∃ it c1, c.insert (k, v) = Except.ok ((it, true), c1)
      ∧ c1.entries = (c.entries ++ [(k, v)]).drop (c.size + 1 - c.capacity)
      ∧ c1.size = min (c.size + 1) c.capacity
      ∧ c1.capacity = c.capacity := by
  obtain ⟨c1, h1, h2, h3, h4, _⟩ := insert_absent_entries c h.inv.1 (k, v) hk
  refine ⟨_, c1, h1, h2, ?_, h4⟩
  have e1 : c1.size = c1.entries.length := by rw [entries_length]; exact h3.size_eq
  have e2 : c.size = c.entries.length := by rw [entries_length]; exact h.inv.1.size_eq
  have e3 : c.size ≤ c.capacity := h.inv.2
  rw [e1, h2, List.length_drop, List.length_append, List.length_singleton, ← e2]
  omega

theorem insert_evicts_from_head_witness :
    ∃ it c1, sample.insert (7, 70) = Except.ok ((it, true), c1)
      ∧ c1.entries = (sample.entries ++ [(7, 70)]).drop (sample.size + 1 - sample.capacity)
      ∧ c1.size = min (sample.size + 1) sample.capacity
      ∧ c1.capacity = sample.capacity :=
  insert_evicts_from_head sample sample_reachable 7 70 (by decide)

/-- C8: in a reachable state, `at(k)` throws `std::out_of_range` exactly when `k` is not in the
cache and does not fail otherwise; when `k` is present with value `v` it returns `v`; whether it
throws or not, the state after the call is the state before it. -/
theorem at_passive_lookup {Key T : Type} [DecidableEq Key] [Inhabited T]
    (c : lru_cache Key T) (h : Reachable c) (k : Key) :
    ((c.at_ k).1 = Except.error fault.out_of_range ↔ k ∉ c.keys)
      ∧ ((∃ e, (c.at_ k).1 = Except.error e) ↔ k ∉ c.keys)
      ∧ (∀ v, (k, v) ∈ c.entries → (c.at_ k).1 = Except.ok v)
      ∧ (c.at_ k).2 = c := by
  have hc := h.inv.1
  by_cases hk : k ∈ c.keys
  · obtain ⟨v, hv⟩ := mem_keys_entries c k hk
    obtain ⟨n, _, _, h2, h3, h4⟩ := hc.lookup k v hv
    have hat : c.at_ k = (Except.ok v, c) := by
      simp only [lru_cache.at_, h3, h4, h2]
    refine ⟨?_, ?_, ?_, by rw [hat]⟩
    · rw [hat]; simp [hk]
    · rw [hat]; simp [hk]
    · intro w hw
      obtain ⟨m, _, _, g2, g3, g4⟩ := hc.lookup k w hw
      simp only [lru_cache.at_, g3, g4, g2]
  · have hf := (hc.find_none k).mpr hk
    have hat : c.at_ k = (Except.error fault.out_of_range, c) := by
      simp only [lru_cache.at_, hf]
    refine ⟨?_, ?_, ?_, by rw [hat]⟩
    · rw [hat]; simp [hk]
    · rw [hat]; simp [hk]
    · intro w hw
      exact absurd (by rw [← entries_keys]; exact List.mem_map_of_mem Prod.fst hw) hk

theorem at_passive_lookup_witness :
    ((sample.at_ 2).1 = Except.error fault.out_of_range ↔ 2 ∉ sample.keys)
      ∧ ((∃ e, (sample.at_ 2).1 = Except.error e) ↔ 2 ∉ sample.keys)
      ∧ (∀ v, (2, v) ∈ sample.entries → (sample.at_ 2).1 = Except.ok v)
      ∧ (sample.at_ 2).2 = sample :=
  at_passive_lookup sample sample_reachable 2

/-- C9: in a reachable state (an empty cache and capacity 0 included) and for a key `k` that is
not in the cache, `find(k)` returns `end()`, `count(k)` is 0 and `erase(k)` returns 0; none of
them fails, `find` and `erase` hand back the state unchanged, and `erase(k)` called any number
of times in a row returns 0 every time and still leaves the state unchanged. -/
theorem absent_key_is_noop {Key T : Type} [DecidableEq Key] [Inhabited T]
    (c : lru_cache Key T) (h : Reachable c) (k : Key) (hk : k ∉ c.keys) :
    c.find k = Except.ok (iterator.end_, c)
      ∧ c.find_const k = iterator.end_
      ∧ c.count k = 0
      ∧ c.erase_key k = Except.ok (0, c)
      ∧ (∀ n, c.erase_key_repeat k n = Except.ok (List.replicate n 0, c)) := by
  have hf := (h.inv.1.find_none k).mpr hk
  refine ⟨find_miss c k hf, ?_, count_eq_zero c h.inv.1 k hk, erase_key_miss c k hf,
    erase_key_repeat_miss c k hf⟩
  simp only [lru_cache.find_const, hf]

theorem absent_key_is_noop_witness :
    lru_cache.find (lru_cache.ctor 0 : lru_cache Nat Nat) 5
        = Except.ok (iterator.end_, lru_cache.ctor 0)
      ∧ lru_cache.find_const (lru_cache.ctor 0 : lru_cache Nat Nat) 5 = iterator.end_
      ∧ lru_cache.count (lru_cache.ctor 0 : lru_cache Nat Nat) 5 = 0
      ∧ lru_cache.erase_key (lru_cache.ctor 0 : lru_cache Nat Nat) 5
        = Except.ok (0, lru_cache.ctor 0)
      ∧ (∀ n, lru_cache.erase_key_repeat (lru_cache.ctor 0 : lru_cache Nat Nat) 5 n
        = Except.ok (List.replicate n 0, lru_cache.ctor 0)) :=
  absent_key_is_noop (lru_cache.ctor 0) (Reachable.ctor 0) 5 (by decide)

/-- C10: in a reachable state, `erase(k)` returns 1 when `k` is in the cache and 0 otherwise;
afterwards `count(k)` is 0 and `k` is in neither the recency list nor the index; the recency list
and the index are the old ones without the entry of `k` (all other entries keep value and order)
and the capacity is unchanged. -/
theorem erase_by_key {Key T : Type} [DecidableEq Key] [Inhabited T]
    (c : lru_cache Key T) (h : Reachable c) (k : Key) :
    ∃ c1, c.erase_key k = Except.ok (if k ∈ c.keys then 1 else 0, c1)
      ∧ c1.count k = 0
      ∧ k ∉ c1.keys
      ∧ k ∉ c1.map_.map Prod.fst
      ∧ c1.entries = c.entries.filter (fun p => !decide (p.1 = k))
      ∧ c1.map_ = c.map_.filter (fun p => !decide (p.1 = k))
      ∧ c1.capacity = c.capacity := by
  have hc := h.inv.1
  by_cases hk : k ∈ c.keys
  · obtain ⟨v, hv⟩ := mem_keys_entries c k hk
    obtain ⟨n, hn, h1, _, _, _⟩ := hc.lookup k v hv
    subst h1
    have hc1 := Consistent_remove c hc n.first c.capacity_
    have hnk : n.first ∉ (c.list_.filter (fun m => !decide (m.first = n.first))).map
        list_node.first := by
      intro hm
      obtain ⟨m, hm1, hm2⟩ := List.mem_map.mp hm
      have := (List.mem_filter.mp hm1).2
      simp [hm2] at this
    refine ⟨_, by rw [if_pos hk]; exact erase_key_hit c hc n hn, count_eq_zero _ hc1 _ hnk, hnk,
      ?_, ?_, rfl, rfl⟩
    · exact fun hm => hnk (hc1.index_keys_perm.mem_iff.mp hm)
    · simp only [lru_cache.entries, entries_filter]
  · have hf := (hc.find_none k).mpr hk
    have hk2 : k ∉ c.map_.map Prod.fst := (map_find_none c.map_ k).mp hf
    refine ⟨c, by rw [if_neg hk]; exact erase_key_miss c k hf, count_eq_zero c hc k hk, hk, hk2,
      ?_, (map_erase_of_not_mem c.map_ k hk2).symm, rfl⟩
    symm
    apply List.filter_eq_self.mpr
    intro p hp
    have : ¬ p.1 = k := fun e => hk (by rw [← entries_keys, ← e]; exact List.mem_map_of_mem _ hp)
    simp [this]

theorem erase_by_key_witness :
    ∃ c1, sample.erase_key 2 = Except.ok (if 2 ∈ sample.keys then 1 else 0, c1)
      ∧ c1.count 2 = 0
      ∧ 2 ∉ c1.keys
      ∧ 2 ∉ c1.map_.map Prod.fst
      ∧ c1.entries = sample.entries.filter (fun p => !decide (p.1 = 2))
      ∧ c1.map_ = sample.map_.filter (fun p => !decide (p.1 = 2))
      ∧ c1.capacity = sample.capacity :=
  erase_by_key sample sample_reachable 2

/-- C11: in a reachable state with entries `L` and size `s`, `reserve(n)` returns and sets the
capacity to `n`; the recency list becomes `L` without its first `s - n` entries (the last `n`
entries of `L`, in order, when `n < s`), the index holds exactly the keys that remain, the size
is the smaller of `s` and `n`; for `n >= s` only the capacity changes. -/
theorem reserve_shrinks {Key T : Type} [DecidableEq Key] [Inhabited T]
    (c : lru_cache Key T) (h : Reachable c) (n : Nat) :
    ∃ c1, c.reserve n = Except.ok c1
      ∧ c1.capacity = n
      ∧ c1.entries = c.entries.drop (c.size - n)
      ∧ (∀ k, k ∈ c1.map_.map Prod.fst ↔ k ∈ (c.entries.drop (c.size - n)).map Prod.fst)
      ∧ c1.size = min c.size n
      ∧ (n < c.size → c1.size = n ∧ c1.entries.length + (c.size - n) = c.entries.length)
      ∧ (c.size ≤ n → c1 = ⟨c.list_, c.map_, n⟩) := by
  have hc := h.inv.1
  obtain ⟨c1, h1, h2, h3, h4, _⟩ := evict_spec _ (Consistent_capacity c hc n)
  have he : c1.entries = c.entries.drop (c.size - n) := by
    simp only [lru_cache.entries, h2, List.map_drop, lru_cache.size, hc.size_eq]
  have hs : c1.size = min c.size n := by
    have e1 : c1.size = c1.entries.length := by rw [entries_length]; exact h3.size_eq
    have e2 : c.size = c.entries.length := by rw [entries_length]; exact hc.size_eq
    rw [e1, he, List.length_drop, ← e2]
    omega
  refine ⟨c1, h1, h4, he, ?_, hs, ?_, ?_⟩
  · intro k
    rw [h3.index_keys_perm.mem_iff, ← he, entries_keys]
    rfl
  · intro hlt
    have e2 : c.size = c.entries.length := by rw [entries_length]; exact hc.size_eq
    refine ⟨by rw [hs]; omega, ?_⟩
    rw [he, List.length_drop, ← e2]
    omega
  · intro hle
    have := evict_within_capacity (⟨c.list_, c.map_, n⟩ : lru_cache Key T) hle
    rw [this] at h1
    cases h1
    rfl

theorem reserve_shrinks_witness :
    ∃ c1, sample.reserve 1 = Except.ok c1
      ∧ c1.capacity = 1
      ∧ c1.entries = sample.entries.drop (sample.size - 1)
      ∧ (∀ k, k ∈ c1.map_.map Prod.fst ↔ k ∈ (sample.entries.drop (sample.size - 1)).map Prod.fst)
      ∧ c1.size = min sample.size 1
      ∧ (1 < sample.size → c1.size = 1
          ∧ c1.entries.length + (sample.size - 1) = sample.entries.length)
      ∧ (sample.size ≤ 1 → c1 = ⟨sample.list_, sample.map_, 1⟩) :=
  reserve_shrinks sample sample_reachable 1

/-- C12: `clear()` leaves an empty list and an empty index with the capacity unchanged; the
state is the state of a newly constructed cache of that capacity, so every later call, and every
sequence of calls, gives the same result and the same state on both. -/
theorem clear_resets {Key T : Type} [DecidableEq Key] [Inhabited T] (c : lru_cache Key T) :
    c.clear.size = 0 ∧ c.clear.empty = true ∧ c.clear.list_ = [] ∧ c.clear.map_ = []
      ∧ c.clear.capacity = c.capacity
      ∧ c.clear = lru_cache.ctor c.capacity
      ∧ (∀ value, c.clear.insert value = (lru_cache.ctor c.capacity).insert value)
      ∧ (∀ ops, run_ops c.clear ops = run_ops (lru_cache.ctor c.capacity) ops)
      ∧ (∀ (α : Type) (f : lru_cache Key T → α), f c.clear = f (lru_cache.ctor c.capacity)) :=
  ⟨rfl, rfl, rfl, rfl, rfl, rfl, fun _ => rfl, fun _ => rfl, fun _ _ => rfl⟩

/-- C19: `empty()` reads the list and `size()` reads the index; in every reachable state
`empty()` is true exactly when `size() == 0`, and `size()` is the number of entries met by
iterating from `begin()` to `end()`. -/
theorem empty_size_agree {Key T : Type} [DecidableEq Key] [Inhabited T]
    (c : lru_cache Key T) (h : Reachable c) :
    (c.empty = true ↔ c.size = 0) ∧ c.size = c.entries.length := by
  have hs := h.inv.1.size_eq
  refine ⟨?_, by rw [entries_length]; exact hs⟩
  simp only [lru_cache.empty, lru_cache.size, hs, List.isEmpty_iff, List.length_eq_zero]

theorem empty_size_agree_witness :
    (sample.empty = true ↔ sample.size = 0) ∧ sample.size = sample.entries.length :=
  empty_size_agree sample sample_reachable

/-- C20: in a reachable state that holds key `k` with value `v`, `cache[k]` and `find(k)` give
the same position and the same state; the node at that position holds `v`; the size is
unchanged and the keys in the cache are the same as before (nothing is evicted). -/
theorem index_present_is_find {Key T : Type} [DecidableEq Key] [Inhabited T]
    (c : lru_cache Key T) (h : Reachable c) (k : Key) (v : T) (hkv : (k, v) ∈ c.entries) :
    c.index k = c.find k
      ∧ ∃ it c1, c.find k = Except.ok (it, c1)
        ∧ c1.value_at it = some v
        ∧ c1.size = c.size
        ∧ c1.capacity = c.capacity
        ∧ (∀ k1, k1 ∈ c1.keys ↔ k1 ∈ c.keys) := by
  have hc := h.inv.1
  obtain ⟨n, _, _, _, h3, _⟩ := hc.lookup k v hkv
  obtain ⟨c1, f1, f2, f3, _, f5, f6, f7⟩ := find_hit_entries c hc k v hkv
  have hd := list_deref_of_mem c1.list_ _ f5.addr_nodup (List.mem_of_getLast?_eq_some f3)
  refine ⟨index_hit c k _ h3, _, c1, f1, ?_, f7, f6, find_hit_keys c c1 k v hkv f2⟩
  simp only [lru_cache.value_at, hd, Option.map_some']

theorem index_present_is_find_witness :
    sample.index 2 = sample.find 2
      ∧ ∃ it c1, sample.find 2 = Except.ok (it, c1)
        ∧ c1.value_at it = some 20
        ∧ c1.size = sample.size
        ∧ c1.capacity = sample.capacity
        ∧ (∀ k1, k1 ∈ c1.keys ↔ k1 ∈ sample.keys) :=
  index_present_is_find sample sample_reachable 2 20 (by decide)

/-- C15: in a reachable state with `capacity() == 0`, `insert(X, v)` and `operator[]` on `X`
return and leave the cache empty: the new entry is evicted at once, list and index are both
empty, `size() == 0`, `count(X) == 0` and `find(X)` returns `end()`. -/
theorem capacity_zero {Key T : Type} [DecidableEq Key] [Inhabited T]
    (c : lru_cache Key T) (h : Reachable c) (h0 : c.capacity = 0) (x : Key) (v : T) :
    ∃ it it2 c1, c.insert (x, v) = Except.ok ((it, true), c1)
      ∧ c.index x = Except.ok (it2, c1)
      ∧ c1.list_ = [] ∧ c1.map_ = [] ∧ c1.capacity = 0
      ∧ c1.size = 0 ∧ c1.empty = true
      ∧ c1.count x = 0
      ∧ c1.find x = Except.ok (iterator.end_, c1)
      ∧ c1.find_const x = iterator.end_ := by
  have hc := h.inv.1
  have hm : c.map_.length = 0 := by
    have := h.inv.2
    simp only [lru_cache.capacity] at h0
    omega
  have hce := hc.empty_state hm
  have hx : x ∉ c.keys := by
    rw [hce]; simp [lru_cache.keys]
  have hf : map_find c.map_ x = none := (hc.find_none x).mpr hx
  have key : ∀ w : T, ∃ it, c.insert (x, w) = Except.ok ((it, true), c) := by
    intro w
    obtain ⟨c1, h1, _, h3, h4, h5⟩ := insert_absent c hc (x, w) hf
    have h6 : c1.map_.length = 0 := by
      simp only [lru_cache.capacity] at h0
      omega
    have := h3.empty_state h6
    rw [h4, ← hce] at this
    exact ⟨_, by rw [h1, this]⟩
  obtain ⟨it, hi⟩ := key v
  obtain ⟨it2, hi2⟩ := key default
  have hl : c.list_ = [] := by rw [hce]
  have hmm : c.map_ = [] := by rw [hce]
  refine ⟨it, it2, c, hi, ?_, hl, hmm, h0, hm, ?_, count_eq_zero c hc x hx, find_miss c x hf, ?_⟩
  · rw [index_miss c x hf, hi2]
    rfl
  · simp only [lru_cache.empty, hl, List.isEmpty_nil]
  · simp only [lru_cache.find_const, hf]

theorem capacity_zero_witness :
    ∃ it it2 c1, (lru_cache.ctor 0 : lru_cache Nat Nat).insert (5, 50) = Except.ok ((it, true), c1)
      ∧ (lru_cache.ctor 0 : lru_cache Nat Nat).index 5 = Except.ok (it2, c1)
      ∧ c1.list_ = [] ∧ c1.map_ = [] ∧ c1.capacity = 0
      ∧ c1.size = 0 ∧ c1.empty = true
      ∧ c1.count 5 = 0
      ∧ c1.find 5 = Except.ok (iterator.end_, c1)
      ∧ c1.find_const 5 = iterator.end_ :=
  capacity_zero (lru_cache.ctor 0) (Reachable.ctor 0) rfl 5 50

/-- C14: with capacity 2 and pairwise distinct keys `A`, `B`, `C`, `D`, starting from a new
cache: `insert(A,1)` gives `[A]`; `insert(B,2)` gives `[A,B]`; `insert(C,3)` evicts `A` and gives
`[B,C]`; `find(B)` gives `[C,B]`; `insert(D,4)` evicts `C` and gives `[B,D]` with the values 2
and 4 (lists oldest first). -/
theorem scenario_capacity_two {Key : Type} [DecidableEq Key] (A B C D : Key)
    (hAB : A ≠ B) (hAC : A ≠ C) (hAD : A ≠ D) (hBC : B ≠ C) (hBD : B ≠ D) (hCD : C ≠ D) :
    ∃ i1 i2 i3 i4 i5 s1 s2 s3 s4 s5,
      (lru_cache.ctor 2 : lru_cache Key Nat).insert (A, 1) = Except.ok ((i1, true), s1)
      ∧ s1.entries = [(A, 1)]
      ∧ s1.insert (B, 2) = Except.ok ((i2, true), s2)
      ∧ s2.entries = [(A, 1), (B, 2)]
      ∧ s2.insert (C, 3) = Except.ok ((i3, true), s3)
      ∧ s3.entries = [(B, 2), (C, 3)] ∧ s3.count A = 0
      ∧ s3.find B = Except.ok (i4, s4)
      ∧ s4.entries = [(C, 3), (B, 2)]
      ∧ s4.insert (D, 4) = Except.ok ((i5, true), s5)
      ∧ s5.entries = [(B, 2), (D, 4)] ∧ s5.count C = 0 := by
  have hBA : B ≠ A := fun e => hAB e.symm
  have hCA : C ≠ A := fun e => hAC e.symm
  have hDA : D ≠ A := fun e => hAD e.symm
  have hCB : C ≠ B := fun e => hBC e.symm
  have hDB : D ≠ B := fun e => hBD e.symm
  have hDC : D ≠ C := fun e => hCD e.symm
  refine ⟨iterator.node 0, iterator.node 1, iterator.node 2, iterator.node 3, iterator.node 4,
    ⟨[⟨0, A, 1⟩], [(A, iterator.node 0)], 2⟩,
    ⟨[⟨0, A, 1⟩, ⟨1, B, 2⟩], [(A, iterator.node 0), (B, iterator.node 1)], 2⟩,
    ⟨[⟨1, B, 2⟩, ⟨2, C, 3⟩], [(B, iterator.node 1), (C, iterator.node 2)], 2⟩,
    ⟨[⟨2, C, 3⟩, ⟨3, B, 2⟩], [(B, iterator.node 3), (C, iterator.node 2)], 2⟩,
    ⟨[⟨3, B, 2⟩, ⟨4, D, 4⟩], [(B, iterator.node 3), (D, iterator.node 4)], 2⟩,
    ?_, rfl, ?_, rfl, ?_, rfl, ?_, ?_, rfl, ?_, rfl, ?_⟩
  · simp [lru_cache.insert, lru_cache.ctor, list_insert_end, list_fresh, map_insert, map_find,
      lru_cache.evict, lru_cache.evict_loop]
  · simp [lru_cache.insert, list_insert_end, list_fresh, map_insert, map_find,
      lru_cache.evict, lru_cache.evict_loop, hAB]
  · simp [lru_cache.insert, list_insert_end, list_fresh, map_insert, map_find,
      lru_cache.evict, lru_cache.evict_loop, lru_cache.erase, lru_cache.begin, list_begin,
      list_deref, list_erase, list_erase_addr, map_erase, hAC, hBC, hBA, hCA]
  · simp [lru_cache.count, map_count, map_find, hBA, hCA]
  · simp [lru_cache.find, list_insert_end, list_fresh, map_find, list_deref, list_erase,
      list_erase_addr, list_begin, map_assign, hCB]
  · simp [lru_cache.insert, list_insert_end, list_fresh, map_insert, map_find,
      lru_cache.evict, lru_cache.evict_loop, lru_cache.erase, lru_cache.begin, list_begin,
      list_deref, list_erase, list_erase_addr, map_erase, hBD, hCD, hBC, hCB, hDC]
  · simp [lru_cache.count, map_count, map_find, hBC, hDC]

theorem scenario_capacity_two_witness :
    ∃ i1 i2 i3 i4 i5 s1 s2 s3 s4 s5,
      (lru_cache.ctor 2 : lru_cache Nat Nat).insert (10, 1) = Except.ok ((i1, true), s1)
      ∧ s1.entries = [(10, 1)]
      ∧ s1.insert (20, 2) = Except.ok ((i2, true), s2)
      ∧ s2.entries = [(10, 1), (20, 2)]
      ∧ s2.insert (30, 3) = Except.ok ((i3, true), s3)
      ∧ s3.entries = [(20, 2), (30, 3)] ∧ s3.count 10 = 0
      ∧ s3.find 20 = Except.ok (i4, s4)
      ∧ s4.entries = [(30, 3), (20, 2)]
      ∧ s4.insert (40, 4) = Except.ok ((i5, true), s5)
      ∧ s5.entries = [(20, 2), (40, 4)] ∧ s5.count 30 = 0 :=
  scenario_capacity_two 10 20 30 40 (by decide) (by decide) (by decide) (by decide) (by decide)
    (by decide)

/-- C13, evaluated where it fails: on a new cache of capacity 0, `cache[5]` creates the entry,
evicts it at once and returns the position of the unlinked node; the returned reference does not
refer to a live value, so no default value can be read through it, and the key is not in the
cache. -/
theorem index_capacity_zero_dangling :
    Reachable (lru_cache.ctor 0 : lru_cache Nat Nat)
      ∧ (lru_cache.ctor 0 : lru_cache Nat Nat).index 5
          = Except.ok (iterator.node 0, lru_cache.ctor 0)
      ∧ (lru_cache.ctor 0 : lru_cache Nat Nat).value_at (iterator.node 0) = none
      ∧ (lru_cache.ctor 0 : lru_cache Nat Nat).count 5 = 0 :=
  ⟨Reachable.ctor 0, by decide, by decide, by decide⟩

/-- C16, evaluated where it fails: on the cache `sample` (nodes 1 and 2) the range erase of
`[begin(), end())` and of the one-entry range `[begin(), next)` does not return: after
`erase(it)` the loop increments the iterator of the unlinked node.  For the empty range the call
returns the default-constructed `result`, not a position of the list. -/
theorem range_erase_undefined :
    Reachable sample ∧ sample.begin = iterator.node 1
      ∧ sample.erase_range (iterator.node 1) iterator.end_
          = Except.error fault.undefined_behaviour
      ∧ sample.erase_range (iterator.node 1) (iterator.node 2)
          = Except.error fault.undefined_behaviour
      ∧ sample.erase (iterator.node 1)
          = Except.ok (iterator.node 2, ⟨[⟨2, 3, 30⟩], [(3, iterator.node 2)], 2⟩)
      ∧ list_next [(⟨2, 3, 30⟩ : list_node Nat Nat)] (iterator.node 1) = none
      ∧ sample.erase_range (iterator.node 1) (iterator.node 1) = Except.ok (none, sample) :=
  ⟨sample_reachable, by decide, by decide, by decide, by decide, by decide, by decide⟩

/-- C17, evaluated where it fails: key 9 is not in the cache `sample`; both overloads of
`equal_range(9)` read `first->second` at `map_.end()` and do not return a range.  For the
present key 2 the non-const overload promotes the entry and returns the range from the new tail
node to `end()`, which holds the entry of key 2 alone. -/
theorem equal_range_absent_undefined :
    Reachable sample ∧ sample.count 9 = 0
      ∧ map_equal_range sample.map_ 9 = (sample.map_.length, sample.map_.length)
      ∧ sample.equal_range 9 = Except.error fault.undefined_behaviour
      ∧ sample.equal_range_const 9 = Except.error fault.undefined_behaviour
      ∧ sample.equal_range 2 = Except.ok ((iterator.node 3, iterator.end_),
          ⟨[⟨2, 3, 30⟩, ⟨3, 2, 20⟩], [(2, iterator.node 3), (3, iterator.node 2)], 2⟩)
      ∧ range_nodes [(⟨2, 3, 30⟩ : list_node Nat Nat), ⟨3, 2, 20⟩] (iterator.node 3)
          iterator.end_ = some [⟨3, 2, 20⟩] :=
  ⟨sample_reachable, by decide, by decide, by decide, by decide, by decide, by decide⟩

/-- C18, evaluated where it fails: the copy of the cache `sample` has the capacity and the
entries of the source in the same order, in new nodes 3 and 4, but its index still holds the
cursors 1 and 2 of the nodes of the source; they refer to no node of the list of the copy, and
`find(2)` and `erase(2)` on the copy hand such a cursor to `list_.erase`.  Copy assignment stores
the same members. -/
theorem copy_keeps_source_cursors :
    Reachable sample
      ∧ sample.copy_ctor
          = ⟨[⟨3, 2, 20⟩, ⟨4, 3, 30⟩], [(2, iterator.node 1), (3, iterator.node 2)], 2⟩
      ∧ sample.copy_ctor.entries = sample.entries
      ∧ sample.copy_ctor.capacity = sample.capacity
      ∧ map_find sample.copy_ctor.map_ 2 = some (iterator.node 1)
      ∧ list_deref sample.copy_ctor.list_ (iterator.node 1) = none
      ∧ list_deref sample.list_ (iterator.node 1) = some ⟨1, 2, 20⟩
      ∧ list_erase sample.copy_ctor.list_ (iterator.node 1) = none
      ∧ sample.copy_ctor.find 2 = Except.error fault.undefined_behaviour
      ∧ sample.copy_ctor.erase_key 2 = Except.error fault.undefined_behaviour
      ∧ (lru_cache.ctor 8 : lru_cache Nat Nat).copy_assign sample = sample.copy_ctor :=
  ⟨sample_reachable, by decide, by decide, by decide, by decide, by decide, by decide,
    by decide, by decide, by decide, by decide⟩

end utility
